import Mathlib

/-!
Verification development for the monos3 file-sharing server.

The definitions below are a shallow embedding of the server's core logic:

* `storage.ts` (`DatabaseStorage`): `groupAndFilterFiles` (union-find style
  lineage grouping with path compression), `getFiles` (visible listing with
  PIN sanitization), `getFileVersions` / `getLatestVersionFile` (lineage
  resolution for the security policy), `incrementDownloadCount`,
  `addTagsToFile`, `getUserDownloadCount`.
* the route handlers (`registerRoutes`): the access-decision chains of
  `GET /api/files/:id/download` and `GET /link/:id`, the post-grant
  download accounting, and the version-injection check of `POST /api/files`.

JavaScript `Map` objects are modelled as association lists with
insertion-order iteration and position-preserving overwrite (`jsSet`,
`jsGet`), matching the iteration-order guarantees of `Map`.  JavaScript
truthiness on nullable strings and numbers is modelled explicitly
(`strOptTruthy`, `natOptTruthy`).  Timestamps are naturals (milliseconds);
a `NULL createdAt` is coalesced to `0` by the source (`createdAt || 0`),
so `createdAt` is modelled as `Nat` directly.
-/

namespace MonoS3

/-- Lookup in a JS `Map` modelled as an association list (first binding wins;
keys are unique by construction via `jsSet`). -/
def jsGet {α : Type} : List (String × α) → String → Option α
  | [], _ => none
  | p :: t, k => if p.1 == k then some p.2 else jsGet t k

/-- `Map.set`: overwrite in place if the key is present (JS `Map.set` keeps
the original insertion position), otherwise append. -/
def jsSet {α : Type} : List (String × α) → String → α → List (String × α)
  | [], k, v => [(k, v)]
  | p :: t, k, v => if p.1 == k then (k, v) :: t else p :: jsSet t k v

/-- `Map.has`. -/
def jsHas {α : Type} (m : List (String × α)) (k : String) : Bool :=
  (jsGet m k).isSome

/-- JS truthiness of a nullable string (`null` and `""` are falsy). -/
def strOptTruthy : Option String → Bool
  | some s => !(s == "")
  | none => false

/-- JS truthiness of a nullable number (`null` and `0` are falsy). -/
def natOptTruthy : Option Nat → Bool
  | some n => !(n == 0)
  | none => false

/-- A row of the `files` table (`shared/schema.ts`).  Only the columns read
by the embedded logic are kept (`url`, `type`, `size`, `category`, `hash`,
`thumbnailUrl` are never consulted by grouping, listing or policy code). -/
structure File where
  id : String
  name : String
  key : String
  userId : Option String
  isPrivate : Bool
  pin : Option String
  expiresAt : Option Nat
  maxDownloads : Option Nat
  maxDownloadsPerUser : Option Nat
  downloadCount : Nat
  parentId : Option String
  createdAt : Nat
deriving DecidableEq, Repr

/-- A row of the `download_logs` table. -/
structure DownloadLog where
  fileId : String
  userId : Option String
  ipAddress : Option String
deriving DecidableEq, Repr

/-! ### Lineage resolution (`groupAndFilterFiles`, `getFileVersions`) -/

/-- `files.forEach(f => { if (f.parentId) childToParent.set(f.id, f.parentId); })`. -/
def buildChildToParent (files : List File) : List (String × String) :=
  files.foldl
    (fun m f =>
      if strOptTruthy f.parentId then jsSet m f.id (f.parentId.getD "") else m)
    []

/-- The state of the `findRoot` while-loop: current node, the pushed path,
and the visited set. -/
structure WalkResult where
  root : String
  path : List String
  visited : List String
deriving DecidableEq, Repr

/-- The `findRoot` while-loop of `storage.ts`:
`while (childToParent.has(root) && !visited.has(root)) { visited.add(root);
path.push(root); root = childToParent.get(root)!; }`, run on explicit fuel.
The callers use fuel `ctp.length + 1`, which is proved sufficient below
(`findRootWalk_exits`). -/
def findRootWalk (ctp : List (String × String)) :
    Nat → String → List String → List String → WalkResult
  | 0, root, path, visited => ⟨root, path, visited⟩
  | fuel + 1, root, path, visited =>
    match jsGet ctp root with
    | none => ⟨root, path, visited⟩
    | some p =>
      if root ∈ visited then ⟨root, path, visited⟩
      else findRootWalk ctp fuel p (path ++ [root]) (root :: visited)

/-- The plain (uncached) `findRoot` of `getFileVersions`. -/
def findRoot (ctp : List (String × String)) (id : String) : String :=
  (findRootWalk ctp (ctp.length + 1) id [] []).root

/-- The memoized `findRoot` of `groupAndFilterFiles`: consult `rootCache`
first, otherwise walk and path-compress (cache every node on the discovered
path, and the root itself, to the root). -/
def findRootCached (ctp : List (String × String)) (cache : List (String × String))
    (id : String) : String × List (String × String) :=
  match jsGet cache id with
  | some r => (r, cache)
  | none =>
    let w := findRootWalk ctp (ctp.length + 1) id [] []
    let c1 := w.path.foldl (fun c node => jsSet c node w.root) cache
    (w.root, jsSet c1 w.root w.root)

/-- One iteration of the grouping loop of `groupAndFilterFiles`: group `f`
under its root, keeping the record with the strictly larger `createdAt`. -/
def groupStep (ctp : List (String × String))
    (st : List (String × File) × List (String × String)) (f : File) :
    List (String × File) × List (String × String) :=
  let rc := findRootCached ctp st.2 f.id
  match jsGet st.1 rc.1 with
  | some existing =>
    if existing.createdAt < f.createdAt then (jsSet st.1 rc.1 f, rc.2)
    else (st.1, rc.2)
  | none => (jsSet st.1 rc.1 f, rc.2)

/-- `DatabaseStorage.groupAndFilterFiles`: one representative (the newest
record) per discovered root, in root-first-seen order. -/
def groupAndFilterFiles (files : List File) : List File :=
  ((files.foldl (groupStep (buildChildToParent files)) ([], [])).1).map Prod.snd

/-! ### Sorting by `createdAt`

The source sorts with `Array.prototype.sort`, which is stable; both
directions are modelled as stable insertion sorts. -/

/-- Insert keeping descending `createdAt` order; equal keys keep earlier
elements first (stability). -/
def insertDesc (f : File) : List File → List File
  | [] => [f]
  | g :: gs => if g.createdAt < f.createdAt then f :: g :: gs else g :: insertDesc f gs

/-- Stable sort, newest first (`(a, b) => dateB - dateA`). -/
def sortDesc (l : List File) : List File :=
  l.foldl (fun acc f => insertDesc f acc) []

/-- Insert keeping ascending `createdAt` order (stable). -/
def insertAsc (f : File) : List File → List File
  | [] => [f]
  | g :: gs => if f.createdAt < g.createdAt then f :: g :: gs else g :: insertAsc f gs

/-- Stable sort, oldest first (the `orderBy(files.createdAt)` of the query). -/
def sortAsc (l : List File) : List File :=
  l.foldl (fun acc f => insertAsc f acc) []

/-! ### Listing (`getFiles`) -/

/-- `userId === f.userId` — strict equality between the (possibly absent)
request user id and the (possibly NULL) record owner; `undefined === null`
is `false`, so this holds only when both are present and equal. -/
def sameOwner (requester : Option String) (ownerId : Option String) : Bool :=
  match requester, ownerId with
  | some u, some v => u == v
  | _, _ => false

/-- The WHERE clause of `getFiles`: public records, plus the requester's own
records when authenticated (SQL `eq(files.userId, userId)` is false on a
NULL owner). -/
def visibleFilter (requester : Option String) (f : File) : Bool :=
  match requester with
  | some u => !f.isPrivate || f.userId == some u
  | none => !f.isPrivate

/-- `const { pin, ...sanitized } = f` applied when the requester is not the
owner. -/
def sanitizeIfNotOwner (requester : Option String) (f : File) : File :=
  if sameOwner requester f.userId then f else { f with pin := none }

/-- `DatabaseStorage.getFiles`: filter to visible records (ordered by
`createdAt`), group to one representative per lineage root, strip PINs of
records the requester does not own, sort newest first. -/
def getFiles (requester : Option String) (all : List File) : List File :=
  let filtered := sortAsc (all.filter (visibleFilter requester))
  let grouped := groupAndFilterFiles filtered
  sortDesc (grouped.map (sanitizeIfNotOwner requester))

/-! ### Version history and the security policy record -/

/-- `db.select().from(files).where(eq(files.id, id))` — first matching row. -/
def getFile (all : List File) (id : String) : Option File :=
  all.find? (fun f => f.id == id)

/-- `DatabaseStorage.getFileVersions`: every record sharing the requested
record's root, newest first. -/
def getFileVersions (all : List File) (id : String) : List File :=
  let ctp := buildChildToParent all
  let targetRoot := findRoot ctp id
  sortDesc (all.filter (fun f => findRoot ctp f.id == targetRoot))

/-- `DatabaseStorage.getLatestVersionFile`: the newest record of the lineage. -/
def getLatestVersionFile (all : List File) (id : String) : Option File :=
  (getFileVersions all id).head?

/-- `const securityPolicy = latestVersion || file` in the download handlers. -/
def policyFor (all : List File) (file : File) : File :=
  (getLatestVersionFile all file.id).getD file

/-! ### Download accounting -/

/-- `DatabaseStorage.getUserDownloadCount`: `count(*)` of download logs for
this file id and user id (a NULL log user never matches). -/
def getUserDownloadCount (logs : List DownloadLog) (fileId : String) (userId : String) : Nat :=
  (logs.filter (fun e => e.fileId == fileId && e.userId == some userId)).length

/-- `DatabaseStorage.incrementDownloadCount`: add one to the requested
record's counter and append one download log entry. -/
def incrementDownloadCount (all : List File) (logs : List DownloadLog)
    (fileId : String) (userId : Option String) (ip : Option String) :
    List File × List DownloadLog :=
  (all.map (fun f => if f.id == fileId then { f with downloadCount := f.downloadCount + 1 } else f),
   logs ++ [⟨fileId, userId, ip⟩])

/-! ### The access decision of the download handlers (`registerRoutes`) -/

/-- The outcome of a download / link request, one constructor per exit of
the handler's check chain. -/
inductive Decision where
  | granted
  | notFound
  | deniedPreview
  | deniedPrivate
  | deniedPin
  | deniedExpired
  | deniedDownloadLimit
  | deniedAuthRequired
  | deniedPerUserLimit
  | pinPrompt
  | loginRedirect
deriving DecidableEq, Repr

/-- The request context: authenticated user id (if any), the `preview`
query flag, the `pin` query parameter, and the current time. -/
structure ReqContext where
  requester : Option String
  isPreview : Bool
  suppliedPin : Option String
  now : Nat
deriving DecidableEq, Repr

/-- The constant-time `compare` helper of the routes file:
`bufA.length === bufB.length && timingSafeEqual(bufA, bufB)` — functionally,
byte-for-byte equality of the two strings. -/
def compare (a b : String) : Bool :=
  a.utf8ByteSize == b.utf8ByteSize && a == b

/-- `req.query.pin as string` coalesced by `pin || ""`. -/
def suppliedPinStr (q : Option String) : String :=
  match q with
  | some s => s
  | none => ""

/-- `req.isAuthenticated() && (req.user as any).id === securityPolicy.userId`. -/
def isOwner (requester : Option String) (ownerId : Option String) : Bool :=
  sameOwner requester ownerId

/-- `securityPolicy.expiresAt && new Date(...).getTime() < Date.now()`. -/
def expired (policy : File) (now : Nat) : Bool :=
  match policy.expiresAt with
  | some t => decide (t < now)
  | none => false

/-- The check chain of `GET /api/files/:id/download`, evaluated against the
`securityPolicy` record: preview veto, privacy/PIN, expiration, global
download limit, per-user download limit.  The two exits of the nested
privacy conditional `(!securityPolicy.pin || !compare(...))` are labelled
`deniedPrivate` (no PIN configured: owner-only) and `deniedPin` (PIN
mismatch), matching the short-circuit order of the source. -/
def downloadPolicyDecision (logs : List DownloadLog) (policy : File) (ctx : ReqContext) :
    Decision :=
  if (policy.isPrivate || strOptTruthy policy.pin) && ctx.isPreview then
    .deniedPreview
  else if policy.isPrivate && !(isOwner ctx.requester policy.userId) &&
      !(strOptTruthy policy.pin) then
    .deniedPrivate
  else if policy.isPrivate && !(isOwner ctx.requester policy.userId) &&
      !(MonoS3.compare (policy.pin.getD "") (suppliedPinStr ctx.suppliedPin)) then
    .deniedPin
  else if !policy.isPrivate && strOptTruthy policy.pin &&
      !(isOwner ctx.requester policy.userId) &&
      !(MonoS3.compare (policy.pin.getD "") (suppliedPinStr ctx.suppliedPin)) then
    .deniedPin
  else if expired policy ctx.now then
    .deniedExpired
  else if !ctx.isPreview && natOptTruthy policy.maxDownloads &&
      policy.maxDownloads.getD 0 ≤ policy.downloadCount then
    .deniedDownloadLimit
  else if !ctx.isPreview && natOptTruthy policy.maxDownloadsPerUser then
    match ctx.requester with
    | none => .deniedAuthRequired
    | some u =>
      if policy.maxDownloadsPerUser.getD 0 ≤ getUserDownloadCount logs policy.id u then
        .deniedPerUserLimit
      else .granted
  else .granted

/-- `GET /api/files/:id/download`: resolve the requested record, resolve the
lineage head as the governing `securityPolicy`, then run the check chain. -/
def downloadDecision (all : List File) (logs : List DownloadLog) (fileId : String)
    (ctx : ReqContext) : Decision :=
  match getFile all fileId with
  | none => .notFound
  | some file => downloadPolicyDecision logs (policyFor all file) ctx

/-- The check chain of `GET /link/:id`: preview veto, expiration, PIN gate
(`requiresPin` with the PIN-entry page as `pinPrompt` and owner-only private
files as `deniedPrivate`), download limits (unauthenticated per-user-limited
requests are redirected to the login page). -/
def linkPolicyDecision (logs : List DownloadLog) (policy : File) (ctx : ReqContext) :
    Decision :=
  if (policy.isPrivate || strOptTruthy policy.pin) && ctx.isPreview then
    .deniedPreview
  else if expired policy ctx.now then
    .deniedExpired
  else if (policy.isPrivate || strOptTruthy policy.pin) &&
      !(isOwner ctx.requester policy.userId) &&
      !(strOptTruthy ctx.suppliedPin && strOptTruthy policy.pin &&
        MonoS3.compare (policy.pin.getD "") (ctx.suppliedPin.getD "")) then
    (if policy.isPrivate && !(strOptTruthy policy.pin) then .deniedPrivate else .pinPrompt)
  else if !ctx.isPreview && natOptTruthy policy.maxDownloads &&
      policy.maxDownloads.getD 0 ≤ policy.downloadCount then
    .deniedDownloadLimit
  else if !ctx.isPreview && natOptTruthy policy.maxDownloadsPerUser then
    match ctx.requester with
    | none => .loginRedirect
    | some u =>
      if policy.maxDownloadsPerUser.getD 0 ≤ getUserDownloadCount logs policy.id u then
        .deniedPerUserLimit
      else .granted
  else .granted

/-- `GET /link/:id`. -/
def linkDecision (all : List File) (logs : List DownloadLog) (fileId : String)
    (ctx : ReqContext) : Decision :=
  match getFile all fileId with
  | none => .notFound
  | some file => linkPolicyDecision logs (policyFor all file) ctx

/-- The whole download request including its post-grant effect: on a granted
non-preview request the handler increments the **requested** record's
counter and appends one log entry; previews and denials change nothing. -/
def handleDownload (all : List File) (logs : List DownloadLog) (fileId : String)
    (ctx : ReqContext) (ip : Option String) :
    Decision × List File × List DownloadLog :=
  let d := downloadDecision all logs fileId ctx
  if d = .granted ∧ ctx.isPreview = false then
    let r := incrementDownloadCount all logs fileId ctx.requester ip
    (d, r.1, r.2)
  else (d, all, logs)

/-! ### Tags (`addTagsToFile`) -/

/-- A row of the `tags` table. -/
structure Tag where
  id : String
  name : String
deriving DecidableEq, Repr

/-- The tag-related persistent state: the `tags` table, the `file_tags`
join table, and a counter standing in for `randomUUID()` (each generated id
is fresh). -/
structure TagDB where
  tags : List Tag
  fileTags : List (String × String)
  nextId : Nat
deriving DecidableEq, Repr

/-- The id generator standing in for `randomUUID()`: an injective scheme —
distinct counters give distinct ids, as distinct `randomUUID()` draws do. -/
def freshTagId (n : Nat) : String := String.mk ('t' :: List.replicate n 't')

/-- `name.toLowerCase().trim()`, modelled character-wise so that it reduces
in the kernel: lowercase every character, then drop whitespace from both
ends. -/
def normalizeTag (s : String) : String :=
  let lowered := s.data.map Char.toLower
  String.mk ((lowered.dropWhile Char.isWhitespace).reverse.dropWhile Char.isWhitespace).reverse

/-- One iteration of `addTagsToFile`: get-or-create the tag by normalized
name, then insert the `(fileId, tagId)` link only when missing. -/
def addTagStep (fileId : String) (db : TagDB) (name : String) : TagDB :=
  let normalized := normalizeTag name
  let found := db.tags.find? (fun t => t.name == normalized)
  let tag := match found with
    | some t => t
    | none => ⟨freshTagId db.nextId, normalized⟩
  let db1 := match found with
    | some _ => db
    | none => { db with tags := db.tags ++ [tag], nextId := db.nextId + 1 }
  if (db1.fileTags.find? (fun p => p.1 == fileId && p.2 == tag.id)).isSome then db1
  else { db1 with fileTags := db1.fileTags ++ [(fileId, tag.id)] }

/-- `DatabaseStorage.addTagsToFile`. -/
def addTagsToFile (fileId : String) (tagNames : List String) (db : TagDB) : TagDB :=
  tagNames.foldl (addTagStep fileId) db

/-- `n` is a tag name linked to `fileId`: some stored tag carries the name
and the `(fileId, tagId)` link exists. -/
def linkedName (fileId : String) (db : TagDB) (n : String) : Prop :=
  ∃ t ∈ db.tags, t.name = n ∧ (fileId, t.id) ∈ db.fileTags

/-- Well-formedness of the tag state (database invariants): tag names are
unique (the `UNIQUE` constraint on `tags.name`), tag ids are unique (the
primary key), and no stored id collides with an id yet to be generated. -/
def TagDBWF (db : TagDB) : Prop :=
  (db.tags.map Tag.name).Nodup ∧ (db.tags.map Tag.id).Nodup ∧
  ∀ t ∈ db.tags, ∀ k, db.nextId ≤ k → t.id ≠ freshTagId k

/-! ### `POST /api/files` (metadata sync with version-injection check) -/

/-- Outcome of the metadata-sync endpoint. -/
inductive CreateResult where
  | parentNotFound
  | permissionDenied
  | created (f : File)
deriving DecidableEq, Repr

/-- `POST /api/files` behind `isAuthenticated`: the parsed body (`data`) has
its `userId` forced to the session user; a truthy `parentId` must name an
existing record whose owner is the requester, else the request is rejected
(404 / 403) and nothing is stored. -/
def createFileViaPost (all : List File) (uid : String) (data : File) :
    CreateResult × List File :=
  let stored : File := { data with userId := some uid }
  if strOptTruthy data.parentId then
    match getFile all (data.parentId.getD "") with
    | none => (.parentNotFound, all)
    | some parentFile =>
      if parentFile.userId == some uid then (.created stored, all ++ [stored])
      else (.permissionDenied, all)
  else (.created stored, all ++ [stored])

/-! ## Auxiliary definitions used by the proofs -/

/-- The keys of a map, in order. -/
def mapKeysX {α : Type} (m : List (String × α)) : List String := m.map Prod.fst

/-- The parent chain from `id`, followed without a visited set; used as the
reference semantics of the root walk on acyclic data. -/
def chainRoot (ctp : List (String × String)) : Nat → String → String
  | 0, id => id
  | fuel + 1, id =>
    match jsGet ctp id with
    | none => id
    | some p => chainRoot ctp fuel p

/-- `chainRoot` at the fuel used by the embedded walks. -/
def chainRootTop (ctp : List (String × String)) (id : String) : String :=
  chainRoot ctp (ctp.length + 1) id

/-- A rank function witnessing that the parent links of `ctp` are acyclic:
every stored parent has strictly smaller rank, and ranks are bounded by the
map size (any acyclic map admits such a function, e.g. chain length). -/
def RankOK (ctp : List (String × String)) (rank : String → Nat) : Prop :=
  (∀ pr ∈ ctp, rank pr.2 < rank pr.1) ∧ (∀ id, rank id ≤ ctp.length)

/-- The filtered, creation-ordered record list that `getFiles` feeds to the
lineage resolver. -/
def visibleSorted (requester : Option String) (all : List File) : List File :=
  sortAsc (all.filter (visibleFilter requester))

/-! ## Concrete records used in the example parts of the claims -/

/-- A plain public record; the other examples are variations of it. -/
def baseFile : File :=
  { id := "x", name := "x.bin", key := "k-x", userId := none, isPrivate := false,
    pin := none, expiresAt := none, maxDownloads := none, maxDownloadsPerUser := none,
    downloadCount := 0, parentId := none, createdAt := 0 }

/-- Lineage root: public, no PIN, created at time 0, owned by `u1`. -/
def fileR : File :=
  { baseFile with id := "r", name := "r.txt", key := "k-r", userId := some "u1" }

/-- Newer version of `fileR`: private, PIN `4321`, created at time 1. -/
def fileC : File :=
  { baseFile with
    id := "c", name := "c.txt", key := "k-c", userId := some "u1",
    isPrivate := true, pin := some "4321", parentId := some "r", createdAt := 1 }

/-- Member of a two-cycle: `a.parentId = b`. -/
def fileCycA : File := { baseFile with id := "a", parentId := some "b", createdAt := 5 }

/-- Member of a two-cycle: `b.parentId = a`. -/
def fileCycB : File := { baseFile with id := "b", parentId := some "a", createdAt := 7 }

/-- A record whose parent id names no record. -/
def fileDangling : File := { baseFile with id := "d", parentId := some "ghost" }

/-- A record that is its own parent. -/
def fileSelfRef : File := { baseFile with id := "s", parentId := some "s" }

/-- A public record with a per-user download limit of 1. -/
def fileLim : File := { baseFile with id := "lim", maxDownloadsPerUser := some 1 }

/-- A private record with no PIN, owned by `u1`. -/
def filePrivNoPin : File :=
  { baseFile with
    id := "p", userId := some "u1", isPrivate := true }

/-- A public record owned by `u1` with PIN `9999` configured. -/
def filePinned : File :=
  { baseFile with
    id := "q", userId := some "u1", pin := some "9999" }

/-- Anonymous, non-preview, no PIN supplied. -/
def anonCtx : ReqContext := ⟨none, false, none, 0⟩

/-- Anonymous, non-preview, PIN `4321` supplied. -/
def anonPinCtx : ReqContext := ⟨none, false, some "4321", 0⟩

/-- The owner `u1` asking for a preview. -/
def ownerPreviewCtx : ReqContext := ⟨some "u1", true, none, 0⟩

/-- Authenticated user `A`, non-preview. -/
def userACtx : ReqContext := ⟨some "A", false, none, 0⟩

/-- Authenticated user `B`, non-preview. -/
def userBCtx : ReqContext := ⟨some "B", false, none, 0⟩

/-! ## Lemma library: association-list maps -/

theorem jsGet_jsSet_self {α : Type} (m : List (String × α)) (k : String) (v : α) :
    jsGet (jsSet m k v) k = some v := by
  induction m with
  | nil => simp [jsSet, jsGet]
  | cons p t ih =>
    cases hp : (p.1 == k) with
    | true => simp [jsSet, hp, jsGet]
    | false => simp [jsSet, hp, jsGet, ih]

theorem jsGet_jsSet_ne {α : Type} (m : List (String × α)) {k k' : String} (v : α)
    (h : k' ≠ k) : jsGet (jsSet m k v) k' = jsGet m k' := by
  have hk : (k == k') = false := beq_eq_false_iff_ne.2 (fun e => h e.symm)
  induction m with
  | nil => simp [jsSet, jsGet, hk]
  | cons p t ih =>
    cases hp : (p.1 == k) with
    | true =>
      have hpk : p.1 = k := by simpa using hp
      simp [jsSet, hp, jsGet, hk, hpk]
    | false =>
      cases hq : (p.1 == k') with
      | true => simp [jsSet, hp, jsGet, hq]
      | false => simp [jsSet, hp, jsGet, hq, ih]

theorem mem_jsSet {α : Type} {m : List (String × α)} {k : String} {v : α}
    {q : String × α} (h : q ∈ jsSet m k v) : q = (k, v) ∨ q ∈ m := by
  induction m with
  | nil => simpa [jsSet] using h
  | cons p t ih =>
    cases hp : (p.1 == k) with
    | true =>
      rw [jsSet] at h
      simp only [hp, if_true, List.mem_cons] at h
      rcases h with h | h
      · exact Or.inl h
      · exact Or.inr (List.mem_cons_of_mem _ h)
    | false =>
      rw [jsSet] at h
      simp only [hp, Bool.false_eq_true, if_false, List.mem_cons] at h
      rcases h with h | h
      · exact Or.inr (List.mem_cons.2 (Or.inl h))
      · rcases ih h with h' | h'
        · exact Or.inl h'
        · exact Or.inr (List.mem_cons_of_mem _ h')

theorem mem_of_jsGet_eq_some {α : Type} {m : List (String × α)} {k : String} {v : α}
    (h : jsGet m k = some v) : (k, v) ∈ m := by
  induction m with
  | nil => simp [jsGet] at h
  | cons p t ih =>
    cases hp : (p.1 == k) with
    | true =>
      have hpk : p.1 = k := by simpa using hp
      rw [jsGet] at h
      simp only [hp, if_true, Option.some.injEq] at h
      have hq : p = (k, v) := by cases p; simp_all
      exact List.mem_cons.2 (Or.inl hq.symm)
    | false =>
      rw [jsGet] at h
      simp only [hp, Bool.false_eq_true, if_false] at h
      exact List.mem_cons_of_mem _ (ih h)

theorem mapKeysX_jsSet_subset {α : Type} {m : List (String × α)} {k x : String} {v : α}
    (h : x ∈ mapKeysX (jsSet m k v)) : x = k ∨ x ∈ mapKeysX m := by
  rcases List.mem_map.1 h with ⟨q, hq, hx⟩
  rcases mem_jsSet hq with h' | h'
  · left; rw [← hx, h']
  · right; exact hx ▸ List.mem_map_of_mem _ h'

theorem keysNodup_jsSet {α : Type} {m : List (String × α)} {k : String} {v : α}
    (h : (mapKeysX m).Nodup) : (mapKeysX (jsSet m k v)).Nodup := by
  induction m with
  | nil => simp [jsSet, mapKeysX]
  | cons p t ih =>
    simp only [mapKeysX, List.map_cons, List.nodup_cons] at h
    cases hp : (p.1 == k) with
    | true =>
      have hpk : p.1 = k := by simpa using hp
      rw [jsSet]
      simp only [hp, if_true, mapKeysX, List.map_cons, List.nodup_cons]
      exact ⟨hpk ▸ h.1, h.2⟩
    | false =>
      have hpk : p.1 ≠ k := by simpa using hp
      rw [jsSet]
      simp only [hp, Bool.false_eq_true, if_false, mapKeysX, List.map_cons, List.nodup_cons]
      refine ⟨fun hc => ?_, ih h.2⟩
      rcases mapKeysX_jsSet_subset hc with h' | h'
      · exact hpk h'
      · exact h.1 h'

theorem jsGet_eq_none_of_not_mem_keys {α : Type} {m : List (String × α)} {k : String}
    (h : k ∉ mapKeysX m) : jsGet m k = none := by
  induction m with
  | nil => rfl
  | cons p t ih =>
    simp only [mapKeysX, List.map_cons, List.mem_cons] at h
    push_neg at h
    have hp : (p.1 == k) = false := beq_eq_false_iff_ne.2 (fun e => h.1 e.symm)
    simp [jsGet, hp, ih h.2]

theorem mem_keys_of_jsGet_isSome {α : Type} {m : List (String × α)} {k : String}
    (h : (jsGet m k).isSome) : k ∈ mapKeysX m := by
  by_contra hc
  rw [jsGet_eq_none_of_not_mem_keys hc] at h
  simp at h

/-! ## Lemma library: the stable sorts -/

theorem insertDesc_perm (f : File) (l : List File) : List.Perm (insertDesc f l) (f :: l) := by
  induction l with
  | nil => exact List.Perm.refl _
  | cons g gs ih =>
    by_cases h : g.createdAt < f.createdAt
    · simp [insertDesc, h]
    · simp only [insertDesc, h, if_false]
      exact (ih.cons g).trans (List.Perm.swap f g gs)

theorem sortDesc_perm (l : List File) : List.Perm (sortDesc l) l := by
  suffices h : ∀ (l acc : List File),
      List.Perm (l.foldl (fun acc f => insertDesc f acc) acc) (acc ++ l) by
    simpa using h l []
  intro l
  induction l with
  | nil => intro acc; simp
  | cons f t ih =>
    intro acc
    refine ((ih (insertDesc f acc)).trans ?_)
    refine (((insertDesc_perm f acc).append_right t).trans ?_)
    exact (List.perm_middle).symm

theorem mem_sortDesc {l : List File} {x : File} : x ∈ sortDesc l ↔ x ∈ l :=
  (sortDesc_perm l).mem_iff

theorem insertAsc_perm (f : File) (l : List File) : List.Perm (insertAsc f l) (f :: l) := by
  induction l with
  | nil => exact List.Perm.refl _
  | cons g gs ih =>
    by_cases h : f.createdAt < g.createdAt
    · simp [insertAsc, h]
    · simp only [insertAsc, h, if_false]
      exact (ih.cons g).trans (List.Perm.swap f g gs)

theorem sortAsc_perm (l : List File) : List.Perm (sortAsc l) l := by
  suffices h : ∀ (l acc : List File),
      List.Perm (l.foldl (fun acc f => insertAsc f acc) acc) (acc ++ l) by
    simpa using h l []
  intro l
  induction l with
  | nil => intro acc; simp
  | cons f t ih =>
    intro acc
    refine ((ih (insertAsc f acc)).trans ?_)
    refine (((insertAsc_perm f acc).append_right t).trans ?_)
    exact (List.perm_middle).symm

theorem mem_sortAsc {l : List File} {x : File} : x ∈ sortAsc l ↔ x ∈ l :=
  (sortAsc_perm l).mem_iff

theorem pairwise_insertDesc {l : List File} {f : File}
    (h : l.Pairwise (fun a b => b.createdAt ≤ a.createdAt)) :
    (insertDesc f l).Pairwise (fun a b => b.createdAt ≤ a.createdAt) := by
  induction l with
  | nil => simp [insertDesc]
  | cons g gs ih =>
    rcases List.pairwise_cons.1 h with ⟨hg, hgs⟩
    by_cases hlt : g.createdAt < f.createdAt
    · simp only [insertDesc, hlt, if_true]
      refine List.pairwise_cons.2 ⟨?_, h⟩
      intro x hx
      rcases List.mem_cons.1 hx with rfl | hx
      · exact Nat.le_of_lt hlt
      · exact Nat.le_trans (hg x hx) (Nat.le_of_lt hlt)
    · simp only [insertDesc, hlt, if_false]
      refine List.pairwise_cons.2 ⟨?_, ih hgs⟩
      intro x hx
      have hx2 : x ∈ f :: gs := (insertDesc_perm f gs).mem_iff.1 hx
      rcases List.mem_cons.1 hx2 with rfl | hx3
      · exact Nat.le_of_not_lt hlt
      · exact hg x hx3

theorem sortDesc_sorted (l : List File) :
    (sortDesc l).Pairwise (fun a b => b.createdAt ≤ a.createdAt) := by
  suffices h : ∀ (l acc : List File),
      acc.Pairwise (fun a b => b.createdAt ≤ a.createdAt) →
      (l.foldl (fun acc f => insertDesc f acc) acc).Pairwise
        (fun a b => b.createdAt ≤ a.createdAt) by
    exact h l [] List.Pairwise.nil
  intro l
  induction l with
  | nil => intro acc hacc; simpa using hacc
  | cons f t ih => intro acc hacc; exact ih _ (pairwise_insertDesc hacc)

/-- The first element of a `sortDesc`-sorted list has the maximal `createdAt`
of the underlying list. -/
theorem sortDesc_head_max {l : List File} {h : File} {t : List File}
    (he : sortDesc l = h :: t) : ∀ x ∈ l, x.createdAt ≤ h.createdAt := by
  intro x hx
  have hx' : x ∈ h :: t := he ▸ mem_sortDesc.2 hx
  rcases List.mem_cons.1 hx' with rfl | hx'
  · exact Nat.le_refl _
  · have hs := sortDesc_sorted l
    rw [he] at hs
    exact (List.pairwise_cons.1 hs).1 x hx'


/-! ## Lemma library: record lookup, versions and the governing policy -/

theorem compare_eq_true_iff {a b : String} : MonoS3.compare a b = true ↔ a = b := by
  unfold MonoS3.compare
  rw [Bool.and_eq_true]
  constructor
  · intro h
    simpa using h.2
  · rintro rfl; simp

theorem getFile_mem {all : List File} {id : String} {f : File}
    (h : getFile all id = some f) : f ∈ all :=
  List.mem_of_find?_eq_some h

theorem getFile_id {all : List File} {id : String} {f : File}
    (h : getFile all id = some f) : f.id = id := by
  have h2 := List.find?_some h
  simpa using h2

theorem getFileVersions_eq (all : List File) (id : String) :
    getFileVersions all id =
      sortDesc (all.filter (fun g =>
        findRoot (buildChildToParent all) g.id == findRoot (buildChildToParent all) id)) := rfl

theorem mem_getFileVersions_self {all : List File} {f : File} (hf : f ∈ all) :
    f ∈ getFileVersions all f.id := by
  rw [getFileVersions_eq]
  exact mem_sortDesc.2 (List.mem_filter.2 ⟨hf, by simp⟩)

theorem policyFor_mem {all : List File} {f : File} (hf : f ∈ all) :
    policyFor all f ∈ getFileVersions all f.id := by
  have hmem := mem_getFileVersions_self hf
  unfold policyFor getLatestVersionFile
  cases hv : getFileVersions all f.id with
  | nil => rw [hv] at hmem; cases hmem
  | cons h t => simp

theorem policyFor_max {all : List File} {f : File} (hf : f ∈ all) :
    ∀ g ∈ getFileVersions all f.id, g.createdAt ≤ (policyFor all f).createdAt := by
  intro g hg
  have hmem := mem_getFileVersions_self hf
  rw [getFileVersions_eq] at hg hmem
  cases hv : sortDesc (all.filter (fun g =>
      findRoot (buildChildToParent all) g.id == findRoot (buildChildToParent all) f.id)) with
  | nil => rw [hv] at hmem; cases hmem
  | cons h t =>
    have hpol : policyFor all f = h := by
      unfold policyFor getLatestVersionFile
      rw [getFileVersions_eq, hv]
      simp
    rw [hpol]
    exact sortDesc_head_max hv g (mem_sortDesc.1 (hv ▸ hg))

theorem downloadDecision_eq {all : List File} {logs : List DownloadLog} {fid : String}
    {ctx : ReqContext} {f : File} (h : getFile all fid = some f) :
    downloadDecision all logs fid ctx = downloadPolicyDecision logs (policyFor all f) ctx := by
  unfold downloadDecision
  rw [h]

theorem linkDecision_eq {all : List File} {logs : List DownloadLog} {fid : String}
    {ctx : ReqContext} {f : File} (h : getFile all fid = some f) :
    linkDecision all logs fid ctx = linkPolicyDecision logs (policyFor all f) ctx := by
  unfold linkDecision
  rw [h]

/-! ## Claim C1 -/

/-- Claim C1: for every stored record set and every download or link request
naming a record, the access decision is evaluated against the policy fields
of the lineage head resolved by `getLatestVersionFile` — a lineage member
whose `createdAt` is maximal among the requested record's versions, and the
unique most-recent member when `createdAt`s are distinct — not against the
record named by the request.  In particular for the lineage
`{fileR (createdAt 0), fileC (createdAt 1)}`, a request for `fileR.id` is
decided by `fileC`'s policy fields: anonymous PIN-less download of `"r"` is
denied by `fileC`'s PIN (while `fileR`'s own fields would have granted it),
and the short-link handler prompts for a PIN for the same reason. -/
theorem C1_head_policy_governs :
    (∀ (all : List File) (logs : List DownloadLog) (fid : String) (ctx : ReqContext)
       (f : File), getFile all fid = some f →
       downloadDecision all logs fid ctx = downloadPolicyDecision logs (policyFor all f) ctx ∧
       linkDecision all logs fid ctx = linkPolicyDecision logs (policyFor all f) ctx ∧
       policyFor all f ∈ getFileVersions all fid ∧
       (∀ g ∈ getFileVersions all fid, g.createdAt ≤ (policyFor all f).createdAt) ∧
       (∀ m ∈ getFileVersions all fid,
          (∀ g ∈ getFileVersions all fid, g ≠ m → g.createdAt < m.createdAt) →
          policyFor all f = m)) ∧
    policyFor [fileR, fileC] fileR = fileC ∧
    downloadDecision [fileR, fileC] [] "r" anonCtx = .deniedPin ∧
    downloadPolicyDecision [] fileR anonCtx = .granted ∧
    linkDecision [fileR, fileC] [] "r" anonCtx = .pinPrompt ∧
    linkPolicyDecision [] fileR anonCtx = .granted ∧
    downloadDecision [fileR, fileC] [] "r" anonPinCtx = .granted := by
  refine ⟨?_, by decide, by decide, by decide, by decide, by decide, by decide⟩
  intro all logs fid ctx f hget
  have hid : f.id = fid := getFile_id hget
  have hmem : f ∈ all := getFile_mem hget
  refine ⟨downloadDecision_eq hget, linkDecision_eq hget, ?_, ?_, ?_⟩
  · rw [← hid]; exact policyFor_mem hmem
  · rw [← hid]; exact policyFor_max hmem
  · intro m hm hstrict
    rw [← hid] at hm hstrict
    by_contra hne
    have h1 : (policyFor all f).createdAt < m.createdAt :=
      hstrict _ (policyFor_mem hmem) hne
    have h2 : m.createdAt ≤ (policyFor all f).createdAt := policyFor_max hmem m hm
    omega

/-- Witness for C1 at the concrete two-element lineage. -/
theorem C1_head_policy_governs_witness :
    downloadDecision [fileR, fileC] [] "r" anonCtx =
      downloadPolicyDecision [] (policyFor [fileR, fileC] fileR) anonCtx :=
  (C1_head_policy_governs.1 [fileR, fileC] [] "r" anonCtx fileR (by decide)).1

/-! ## Claim C2 -/

/-- Claim C2: whenever the lineage head governing a download request has
`isPrivate` set or a (truthy) PIN configured, a preview request is denied
with the preview veto, for every requester — including the head's owner —
regardless of the supplied PIN, the clock, counters or limits; and in
particular the owner of a private PIN-less file is denied a preview. -/
theorem C2_preview_veto :
    (∀ (all : List File) (logs : List DownloadLog) (fid : String) (ctx : ReqContext)
       (f : File), getFile all fid = some f →
       ctx.isPreview = true →
       ((policyFor all f).isPrivate = true ∨ strOptTruthy (policyFor all f).pin = true) →
       downloadDecision all logs fid ctx = .deniedPreview) ∧
    downloadDecision [filePrivNoPin] [] "p" ownerPreviewCtx = .deniedPreview := by
  refine ⟨?_, by decide⟩
  intro all logs fid ctx f hget hprev hpol
  rw [downloadDecision_eq hget]
  have hcond : (((policyFor all f).isPrivate || strOptTruthy (policyFor all f).pin)
      && ctx.isPreview) = true := by
    rcases hpol with h | h <;> simp [h, hprev]
  unfold downloadPolicyDecision
  simp only [hcond, if_true]

/-- Witness for C2: the owner of a private PIN-less file, previewing. -/
theorem C2_preview_veto_witness :
    downloadDecision [filePrivNoPin] [] "p" ownerPreviewCtx = .deniedPreview :=
  C2_preview_veto.1 [filePrivNoPin] [] "p" ownerPreviewCtx filePrivNoPin
    (by decide) (by decide) (Or.inl (by decide))


/-! ## Claim C3 -/

/-- Claim C3: for every non-owner, non-preview download request on a file
whose governing head has `isPrivate` set: with no (truthy) PIN configured
the request is denied unconditionally (owner-only); with a PIN configured
the request can be granted only when the supplied PIN string equals the
configured one, a mismatching supplied PIN (wrong length, wrong digits, or
the empty string) yielding the PIN denial; and when `isPrivate` is false
but a PIN is configured, a non-owner with a mismatching PIN is likewise
denied, while a matching PIN (absent expiration and download limits) is
granted. -/
theorem C3_privacy_pin_rules :
    ∀ (all : List File) (logs : List DownloadLog) (fid : String) (ctx : ReqContext)
      (f P : File), getFile all fid = some f → policyFor all f = P →
      isOwner ctx.requester P.userId = false → ctx.isPreview = false →
      ((P.isPrivate = true → strOptTruthy P.pin = false →
          downloadDecision all logs fid ctx = .deniedPrivate) ∧
       (P.isPrivate = true → strOptTruthy P.pin = true →
          MonoS3.compare (P.pin.getD "") (suppliedPinStr ctx.suppliedPin) = false →
          downloadDecision all logs fid ctx = .deniedPin) ∧
       (P.isPrivate = false → strOptTruthy P.pin = true →
          MonoS3.compare (P.pin.getD "") (suppliedPinStr ctx.suppliedPin) = false →
          downloadDecision all logs fid ctx = .deniedPin) ∧
       (strOptTruthy P.pin = true →
          downloadDecision all logs fid ctx = .granted →
          suppliedPinStr ctx.suppliedPin = P.pin.getD "") ∧
       (strOptTruthy P.pin = true →
          MonoS3.compare (P.pin.getD "") (suppliedPinStr ctx.suppliedPin) = true →
          expired P ctx.now = false →
          natOptTruthy P.maxDownloads = false →
          natOptTruthy P.maxDownloadsPerUser = false →
          downloadDecision all logs fid ctx = .granted)) := by
  intro all logs fid ctx f P hget hpol howner hprev
  rw [downloadDecision_eq hget, hpol]
  refine ⟨?_, ?_, ?_, ?_, ?_⟩
  · intro hpriv hpin
    unfold downloadPolicyDecision
    simp [howner, hpriv, hpin, hprev]
  · intro hpriv hpin hcmp
    unfold downloadPolicyDecision
    simp [howner, hpriv, hpin, hprev, hcmp]
  · intro hpriv hpin hcmp
    unfold downloadPolicyDecision
    simp [howner, hpriv, hpin, hprev, hcmp]
  · intro hpin hgr
    by_contra hne
    have hcmp : MonoS3.compare (P.pin.getD "") (suppliedPinStr ctx.suppliedPin) = false := by
      cases hc : MonoS3.compare (P.pin.getD "") (suppliedPinStr ctx.suppliedPin) with
      | false => rfl
      | true => exact absurd (compare_eq_true_iff.1 hc).symm hne
    unfold downloadPolicyDecision at hgr
    cases hpriv : P.isPrivate with
    | true => simp [howner, hpriv, hpin, hprev, hcmp] at hgr
    | false => simp [howner, hpriv, hpin, hprev, hcmp] at hgr
  · intro hpin hcmp hexp hmax hmaxu
    unfold downloadPolicyDecision
    cases hpriv : P.isPrivate with
    | true => simp [howner, hpriv, hpin, hprev, hcmp, hexp, hmax, hmaxu]
    | false => simp [howner, hpriv, hpin, hprev, hcmp, hexp, hmax, hmaxu]

/-- Witness for C3: private file with PIN `1234`, anonymous requester
supplying `1235` is denied with the PIN denial. -/
theorem C3_privacy_pin_rules_witness :
    downloadDecision [{ baseFile with id := "w", isPrivate := true, pin := some "1234" }]
      [] "w" ⟨none, false, some "1235", 0⟩ = .deniedPin :=
  ((C3_privacy_pin_rules [{ baseFile with id := "w", isPrivate := true, pin := some "1234" }]
      [] "w" ⟨none, false, some "1235", 0⟩
      { baseFile with id := "w", isPrivate := true, pin := some "1234" }
      { baseFile with id := "w", isPrivate := true, pin := some "1234" }
      (by decide) (by decide) (by decide) rfl).2.1) (by decide) (by decide) (by decide)


/-! ## Claim C6 -/

/-- Reduction of the download check chain to the per-user stage: when the
request is not a preview and the privacy/PIN, expiration and global-limit
checks all pass while `maxDownloadsPerUser` is truthy, the decision is the
per-user rule's outcome. -/
theorem downloadPolicyDecision_perUser_stage (logs : List DownloadLog) (P : File)
    (ctx : ReqContext)
    (hprev : ctx.isPreview = false)
    (h2 : (P.isPrivate && !(isOwner ctx.requester P.userId) &&
        !(strOptTruthy P.pin)) = false)
    (h3 : (P.isPrivate && !(isOwner ctx.requester P.userId) &&
        !(MonoS3.compare (P.pin.getD "") (suppliedPinStr ctx.suppliedPin))) = false)
    (h4 : (!P.isPrivate && strOptTruthy P.pin && !(isOwner ctx.requester P.userId) &&
        !(MonoS3.compare (P.pin.getD "") (suppliedPinStr ctx.suppliedPin))) = false)
    (hexp : expired P ctx.now = false)
    (h6 : (natOptTruthy P.maxDownloads &&
        decide (P.maxDownloads.getD 0 ≤ P.downloadCount)) = false)
    (hmaxu : natOptTruthy P.maxDownloadsPerUser = true) :
    downloadPolicyDecision logs P ctx =
      match ctx.requester with
      | none => .deniedAuthRequired
      | some u =>
        if P.maxDownloadsPerUser.getD 0 ≤ getUserDownloadCount logs P.id u then
          .deniedPerUserLimit
        else .granted := by
  unfold downloadPolicyDecision
  simp only [hprev, Bool.and_false, Bool.not_false, Bool.true_and, h2, h3, h4, hexp, h6, hmaxu]
  simp

/-- Claim C6: on a non-preview download request whose governing head has
`maxDownloadsPerUser` set (and whose earlier checks — privacy/PIN,
expiration, global limit — all pass), an unauthenticated requester is
denied with the authentication-required denial, and an authenticated
requester `u` is granted exactly when `u`'s logged download count for the
head's id is strictly below the limit and denied with the per-user denial
exactly when it is at or above the limit.  Concretely, with
`maxDownloadsPerUser = 1` and one logged download by user `A`, `A` is
denied while `B` is granted, and an anonymous request is denied with the
authentication requirement. -/
theorem C6_per_user_limit :
    (∀ (all : List File) (logs : List DownloadLog) (fid : String) (ctx : ReqContext)
       (f P : File), getFile all fid = some f → policyFor all f = P →
       ctx.isPreview = false →
       natOptTruthy P.maxDownloadsPerUser = true →
       (P.isPrivate && !(isOwner ctx.requester P.userId) &&
          !(strOptTruthy P.pin)) = false →
       (P.isPrivate && !(isOwner ctx.requester P.userId) &&
          !(MonoS3.compare (P.pin.getD "") (suppliedPinStr ctx.suppliedPin))) = false →
       (!P.isPrivate && strOptTruthy P.pin && !(isOwner ctx.requester P.userId) &&
          !(MonoS3.compare (P.pin.getD "") (suppliedPinStr ctx.suppliedPin))) = false →
       expired P ctx.now = false →
       (natOptTruthy P.maxDownloads &&
          decide (P.maxDownloads.getD 0 ≤ P.downloadCount)) = false →
       ((ctx.requester = none →
           downloadDecision all logs fid ctx = .deniedAuthRequired) ∧
        (∀ u, ctx.requester = some u →
          (downloadDecision all logs fid ctx = .granted ↔
            getUserDownloadCount logs P.id u < P.maxDownloadsPerUser.getD 0) ∧
          (downloadDecision all logs fid ctx = .deniedPerUserLimit ↔
            P.maxDownloadsPerUser.getD 0 ≤ getUserDownloadCount logs P.id u)))) ∧
    downloadDecision [fileLim] [⟨"lim", some "A", none⟩] "lim" userACtx
      = .deniedPerUserLimit ∧
    downloadDecision [fileLim] [⟨"lim", some "A", none⟩] "lim" userBCtx = .granted ∧
    downloadDecision [fileLim] [] "lim" anonCtx = .deniedAuthRequired := by
  refine ⟨?_, by decide, by decide, by decide⟩
  intro all logs fid ctx f P hget hpol hprev hmaxu h2 h3 h4 hexp h6
  rw [downloadDecision_eq hget, hpol,
    downloadPolicyDecision_perUser_stage logs P ctx hprev h2 h3 h4 hexp h6 hmaxu]
  constructor
  · intro hreq; rw [hreq]
  · intro u hreq
    rw [hreq]
    show ((if P.maxDownloadsPerUser.getD 0 ≤ getUserDownloadCount logs P.id u then
        Decision.deniedPerUserLimit else Decision.granted) = _ ↔ _) ∧
      ((if P.maxDownloadsPerUser.getD 0 ≤ getUserDownloadCount logs P.id u then
        Decision.deniedPerUserLimit else Decision.granted) = _ ↔ _)
    by_cases hc : P.maxDownloadsPerUser.getD 0 ≤ getUserDownloadCount logs P.id u
    · rw [if_pos hc]
      refine ⟨⟨fun h => ?_, fun h => ?_⟩, fun _ => hc, fun _ => rfl⟩
      · exact Decision.noConfusion h
      · exact absurd h (by omega)
    · rw [if_neg hc]
      refine ⟨⟨fun _ => Nat.lt_of_not_le hc, fun _ => rfl⟩, fun h => ?_, fun h => ?_⟩
      · exact Decision.noConfusion h
      · exact absurd h hc

/-- Witness for C6: user `B` with no logged downloads is granted on the
per-user-limited file. -/
theorem C6_per_user_limit_witness :
    downloadDecision [fileLim] [⟨"lim", some "A", none⟩] "lim" userBCtx = .granted :=
  (((C6_per_user_limit.1 [fileLim] [⟨"lim", some "A", none⟩] "lim" userBCtx
      fileLim fileLim (by decide) (by decide) rfl (by decide) (by decide) (by decide)
      (by decide) (by decide) (by decide)).2 "B" rfl).1).2 (by decide)

/-! ## Claim C7 -/

/-- `Forall₂` between a list and its image under a pointwise-related map. -/
theorem forall₂_map_self {α : Type} {R : α → α → Prop} {φ : α → α} :
    ∀ {l : List α}, (∀ a ∈ l, R a (φ a)) → List.Forall₂ R l (l.map φ)
  | [], _ => List.Forall₂.nil
  | a :: t, h =>
    List.Forall₂.cons (h a (List.mem_cons_self a t))
      (forall₂_map_self (fun b hb => h b (List.mem_cons_of_mem a hb)))

/-- Claim C7: a granted non-preview download of requested record id `fid`
replaces each stored record with id `fid` by the same record with
`downloadCount` incremented by exactly one (all other fields untouched),
leaves every record with a different id — including the lineage head when
it differs from the requested record — unchanged, and appends exactly one
download log entry carrying the requester id (if any) and the source IP;
a preview request, or any denial, changes no record and writes no log. -/
theorem C7_accounting :
    ∀ (all : List File) (logs : List DownloadLog) (fid : String) (ctx : ReqContext)
      (ip : Option String),
      (handleDownload all logs fid ctx ip).1 = downloadDecision all logs fid ctx ∧
      (downloadDecision all logs fid ctx = .granted → ctx.isPreview = false →
        (handleDownload all logs fid ctx ip).2.2 = logs ++ [⟨fid, ctx.requester, ip⟩] ∧
        List.Forall₂ (fun g g' =>
            (g.id ≠ fid → g' = g) ∧
            (g.id = fid → g' = { g with downloadCount := g.downloadCount + 1 }))
          all (handleDownload all logs fid ctx ip).2.1) ∧
      (ctx.isPreview = true →
        (handleDownload all logs fid ctx ip).2.1 = all ∧
        (handleDownload all logs fid ctx ip).2.2 = logs) ∧
      (downloadDecision all logs fid ctx ≠ .granted →
        (handleDownload all logs fid ctx ip).2.1 = all ∧
        (handleDownload all logs fid ctx ip).2.2 = logs) := by
  intro all logs fid ctx ip
  refine ⟨?_, ?_, ?_, ?_⟩
  · unfold handleDownload
    by_cases h : downloadDecision all logs fid ctx = .granted ∧ ctx.isPreview = false
    · simp [h]
    · simp [h]
  · intro hgr hprev
    unfold handleDownload
    rw [if_pos ⟨hgr, hprev⟩]
    refine ⟨rfl, ?_⟩
    apply forall₂_map_self
    intro g hg
    by_cases hid : g.id = fid
    · have hb : (g.id == fid) = true := by simpa using hid
      simp [incrementDownloadCount, hb, hid]
    · have hb : (g.id == fid) = false := by simpa using hid
      simp [incrementDownloadCount, hb, hid]
  · intro hprev
    unfold handleDownload
    rw [if_neg (by simp [hprev])]
    exact ⟨rfl, rfl⟩
  · intro hgr
    unfold handleDownload
    rw [if_neg (by simp [hgr])]
    exact ⟨rfl, rfl⟩

/-- Witness for C7: a granted anonymous download of the public base record
increments its counter and logs the download. -/
theorem C7_accounting_witness :
    (handleDownload [baseFile] [] "x" anonCtx (some "9.9.9.9")).2.2 =
      [⟨"x", none, some "9.9.9.9"⟩] :=
  ((C7_accounting [baseFile] [] "x" anonCtx (some "9.9.9.9")).2.1
    (by decide) rfl).1

/-! ## Claim C10 -/

/-- Claim C10: the metadata-sync endpoint (`POST /api/files`, authenticated)
stores the parsed record with `userId` forced to the session user; when the
submitted `parentId` is truthy it requires the parent record to exist
(otherwise 404, nothing stored) and to be owned by the requester (otherwise
403, nothing stored); consequently every record it creates with a truthy
`parentId` points at an existing record with the same owner as the created
record, so no lineage created through this endpoint links records of two
different owners. -/
theorem C10_version_injection_prevention :
    ∀ (all : List File) (uid : String) (data : File),
      (strOptTruthy data.parentId = true →
        getFile all (data.parentId.getD "") = none →
        createFileViaPost all uid data = (.parentNotFound, all)) ∧
      (∀ parent, strOptTruthy data.parentId = true →
        getFile all (data.parentId.getD "") = some parent →
        parent.userId ≠ some uid →
        createFileViaPost all uid data = (.permissionDenied, all)) ∧
      (∀ (f : File) (all' : List File),
        createFileViaPost all uid data = (.created f, all') →
        f.userId = some uid ∧ all' = all ++ [f] ∧
        (strOptTruthy f.parentId = true →
          ∃ parent ∈ all, parent.id = f.parentId.getD "" ∧
            parent.userId = some uid)) := by
  intro all uid data
  refine ⟨?_, ?_, ?_⟩
  · intro htr hnone
    unfold createFileViaPost
    rw [if_pos htr, hnone]
  · intro parent htr hsome hne
    unfold createFileViaPost
    rw [if_pos htr, hsome]
    have hb : (parent.userId == some uid) = false := by
      cases hcb : parent.userId == some uid with
      | false => rfl
      | true => exact absurd (by simpa using hcb) hne
    simp [hb]
  · intro f all' hcreate
    by_cases htr : strOptTruthy data.parentId = true
    · cases hg : getFile all (data.parentId.getD "") with
      | none =>
        have heq : createFileViaPost all uid data = (.parentNotFound, all) := by
          unfold createFileViaPost
          rw [if_pos htr, hg]
        rw [heq] at hcreate
        simp at hcreate
      | some parent =>
        have heq : createFileViaPost all uid data =
            if parent.userId == some uid then
              (.created { data with userId := some uid },
                all ++ [{ data with userId := some uid }])
            else (.permissionDenied, all) := by
          unfold createFileViaPost
          rw [if_pos htr, hg]
        rw [heq] at hcreate
        cases hb : parent.userId == some uid with
        | false =>
          rw [if_neg (by simp [hb])] at hcreate
          simp at hcreate
        | true =>
          rw [if_pos hb] at hcreate
          injection hcreate with h1 h2
          injection h1 with h3
          subst h3
          subst h2
          exact ⟨rfl, rfl, fun _ => ⟨parent, getFile_mem hg, getFile_id hg, by simpa using hb⟩⟩
    · have heq : createFileViaPost all uid data =
          (.created { data with userId := some uid },
            all ++ [{ data with userId := some uid }]) := by
        unfold createFileViaPost
        rw [if_neg htr]
      rw [heq] at hcreate
      injection hcreate with h1 h2
      injection h1 with h3
      subst h3
      subst h2
      exact ⟨rfl, rfl, fun hc => absurd hc htr⟩

/-- Witness for C10: submitting a child for a parent owned by another user
is rejected and stores nothing. -/
theorem C10_version_injection_prevention_witness :
    createFileViaPost [fileR] "u2" { baseFile with id := "k", parentId := some "r" } =
      (.permissionDenied, [fileR]) :=
  (C10_version_injection_prevention [fileR] "u2"
      { baseFile with id := "k", parentId := some "r" }).2.1 fileR
    (by decide) (by decide) (by decide)


/-! ## Claim C8: the root walk always exits -/

theorem length_filter_le_of_imp {α : Type} (p q : α → Bool)
    (himp : ∀ x, q x = true → p x = true) :
    ∀ l : List α, (l.filter q).length ≤ (l.filter p).length := by
  intro l
  induction l with
  | nil => simp
  | cons x t ih =>
    cases hq : q x with
    | true =>
      have hp := himp x hq
      simp only [List.filter_cons, hq, hp, if_true, List.length_cons]
      exact Nat.succ_le_succ ih
    | false =>
      cases hp : p x with
      | true =>
        simp only [List.filter_cons, hq, hp, Bool.false_eq_true, if_false, if_true,
          List.length_cons]
        exact Nat.le_succ_of_le ih
      | false =>
        simp only [List.filter_cons, hq, hp, Bool.false_eq_true, if_false]
        exact ih

theorem length_filter_lt_of_witness {α : Type} {p q : α → Bool}
    (himp : ∀ x, q x = true → p x = true) {l : List α} {a : α}
    (ha : a ∈ l) (hpa : p a = true) (hqa : q a = false) :
    (l.filter q).length < (l.filter p).length := by
  induction l with
  | nil => cases ha
  | cons x t ih =>
    rcases List.mem_cons.1 ha with rfl | hat
    · simp only [List.filter_cons, hpa, hqa, Bool.false_eq_true, if_false, if_true,
        List.length_cons]
      exact Nat.lt_succ_of_le (length_filter_le_of_imp p q himp t)
    · cases hq : q x with
      | true =>
        have hp := himp x hq
        simp only [List.filter_cons, hq, hp, if_true, List.length_cons]
        exact Nat.succ_lt_succ (ih hat)
      | false =>
        cases hp : p x with
        | true =>
          simp only [List.filter_cons, hq, hp, Bool.false_eq_true, if_false, if_true,
            List.length_cons]
          exact Nat.lt_succ_of_lt (ih hat)
        | false =>
          simp only [List.filter_cons, hq, hp, Bool.false_eq_true, if_false]
          exact ih hat

/-- When the fuel exceeds the number of map keys not yet visited, the walk
exits by the loop condition (no key, or a revisit) rather than by running
out of fuel. -/
theorem findRootWalk_exits (ctp : List (String × String)) :
    ∀ (fuel : Nat) (root : String) (path visited : List String),
      ((mapKeysX ctp).filter (fun k => decide (k ∉ visited))).length < fuel →
      jsGet ctp (findRootWalk ctp fuel root path visited).root = none ∨
      (findRootWalk ctp fuel root path visited).root ∈
        (findRootWalk ctp fuel root path visited).visited := by
  intro fuel
  induction fuel with
  | zero => intro root path visited h; exact absurd h (Nat.not_lt_zero _)
  | succ n ih =>
    intro root path visited h
    cases hg : jsGet ctp root with
    | none => left; simp [findRootWalk, hg]
    | some p =>
      by_cases hv : root ∈ visited
      · right; simp [findRootWalk, hg, hv]
      · have hroot_key : root ∈ mapKeysX ctp :=
          mem_keys_of_jsGet_isSome (by simp [hg])
        have hlt : ((mapKeysX ctp).filter (fun k => decide (k ∉ root :: visited))).length <
            ((mapKeysX ctp).filter (fun k => decide (k ∉ visited))).length := by
          refine length_filter_lt_of_witness ?_ hroot_key ?_ ?_
          · intro x hx
            simp only [decide_eq_true_eq] at hx ⊢
            exact fun hmem => hx (List.mem_cons_of_mem _ hmem)
          · simp [hv]
          · simp
        have hmeas : ((mapKeysX ctp).filter
            (fun k => decide (k ∉ root :: visited))).length < n := by omega
        have hstep : findRootWalk ctp (n + 1) root path visited =
            findRootWalk ctp n p (path ++ [root]) (root :: visited) := by
          simp [findRootWalk, hg, hv]
        rw [hstep]
        exact ih p (path ++ [root]) (root :: visited) hmeas

/-- Claim C8: for every record set — including cyclic parent links,
self-referential `parentId`, and dangling `parentId` — the root-finding walk
terminates by its loop condition (reaching a node with no parent entry, or
revisiting a node), never by exhaustion; a self-referential record resolves
to itself (treated as having no parent); a record whose parent id names no
record resolves to that missing id, under which it groups alone as its own
head; and in the two-cycle `{a ↦ b, b ↦ a}` the uncached walk resolves each
member to itself while the cached grouping resolver merges them under the
single deterministic root of the first walk, yielding one listed head. -/
theorem C8_walk_terminates_and_tolerates_malformed_links :
    (∀ (files : List File) (id : String),
       jsGet (buildChildToParent files)
           (findRootWalk (buildChildToParent files)
             ((buildChildToParent files).length + 1) id [] []).root = none ∨
       (findRootWalk (buildChildToParent files)
           ((buildChildToParent files).length + 1) id [] []).root ∈
         (findRootWalk (buildChildToParent files)
           ((buildChildToParent files).length + 1) id [] []).visited) ∧
    (∀ (ctp : List (String × String)) (id : String),
       jsGet ctp id = some id → findRoot ctp id = id) ∧
    (∀ (ctp : List (String × String)) (id p : String),
       jsGet ctp id = some p → jsGet ctp p = none → findRoot ctp id = p) ∧
    groupAndFilterFiles [fileSelfRef] = [fileSelfRef] ∧
    findRoot (buildChildToParent [fileSelfRef]) "s" = "s" ∧
    groupAndFilterFiles [fileDangling] = [fileDangling] ∧
    findRoot (buildChildToParent [fileDangling]) "d" = "ghost" ∧
    groupAndFilterFiles [fileCycA, fileCycB] = [fileCycB] ∧
    findRoot (buildChildToParent [fileCycA, fileCycB]) "a" = "a" ∧
    findRoot (buildChildToParent [fileCycA, fileCycB]) "b" = "b" ∧
    getFileVersions [fileCycA, fileCycB] "a" = [fileCycA] := by
  refine ⟨?_, ?_, ?_, by decide, by decide, by decide, by decide, by decide,
    by decide, by decide, by decide⟩
  · intro files id
    apply findRootWalk_exits
    calc ((mapKeysX (buildChildToParent files)).filter
            (fun k => decide (k ∉ ([] : List String)))).length
        ≤ (mapKeysX (buildChildToParent files)).length := List.length_filter_le _ _
      _ = (buildChildToParent files).length := List.length_map _ _
      _ < (buildChildToParent files).length + 1 := Nat.lt_succ_self _
  · intro ctp id hself
    have hne : ctp ≠ [] := by
      intro h
      rw [h] at hself
      simp [jsGet] at hself
    obtain ⟨m, hm⟩ : ∃ m, ctp.length = m + 1 := by
      cases hl : ctp.length with
      | zero => exact absurd (List.length_eq_zero.1 hl) hne
      | succ m => exact ⟨m, rfl⟩
    unfold findRoot
    rw [hm]
    simp [findRootWalk, hself]
  · intro ctp id p hget hnone
    have hne : ctp ≠ [] := by
      intro h
      rw [h] at hget
      simp [jsGet] at hget
    obtain ⟨m, hm⟩ : ∃ m, ctp.length = m + 1 := by
      cases hl : ctp.length with
      | zero => exact absurd (List.length_eq_zero.1 hl) hne
      | succ m => exact ⟨m, rfl⟩
    unfold findRoot
    rw [hm]
    simp [findRootWalk, hget, hnone]

/-- Witness for C8: the self-referential and dangling general clauses at
their concrete instances. -/
theorem C8_walk_terminates_witness :
    findRoot (buildChildToParent [fileSelfRef]) "s" = "s" ∧
    findRoot (buildChildToParent [fileDangling]) "d" = "ghost" :=
  ⟨C8_walk_terminates_and_tolerates_malformed_links.2.1
      (buildChildToParent [fileSelfRef]) "s" (by decide),
    C8_walk_terminates_and_tolerates_malformed_links.2.2.1
      (buildChildToParent [fileDangling]) "d" "ghost" (by decide) (by decide)⟩


/-! ## Claim C9: tag association -/

theorem freshTagId_inj {n m : Nat} (h : freshTagId n = freshTagId m) : n = m := by
  unfold freshTagId at h
  injection h with h1
  have h2 := congrArg List.length h1
  simpa using h2

theorem tagFind_some {db : TagDB} {nn : String} {t : Tag}
    (h : db.tags.find? (fun u => u.name == nn) = some t) :
    t ∈ db.tags ∧ t.name = nn :=
  ⟨List.mem_of_find?_eq_some h, by simpa using List.find?_some h⟩

theorem tagFind_none {db : TagDB} {nn : String}
    (h : db.tags.find? (fun u => u.name == nn) = none) :
    ∀ t ∈ db.tags, t.name ≠ nn := by
  intro t ht
  have h2 := List.find?_eq_none.1 h t ht
  simpa using h2

theorem linkFind_isSome_iff {fileId tid : String} {l : List (String × String)} :
    (l.find? (fun p => p.1 == fileId && p.2 == tid)).isSome ↔ (fileId, tid) ∈ l := by
  rw [List.find?_isSome]
  constructor
  · rintro ⟨p, hp, hpred⟩
    obtain ⟨h1, h2⟩ : p.1 = fileId ∧ p.2 = tid := by simpa using hpred
    have hpq : p = (fileId, tid) := by cases p; simp_all
    rwa [hpq] at hp
  · intro hmem
    exact ⟨(fileId, tid), hmem, by simp⟩

theorem addTagStep_found {db : TagDB} {fileId name : String} {t : Tag}
    (hf : db.tags.find? (fun u => u.name == normalizeTag name) = some t) :
    addTagStep fileId db name =
      if (db.fileTags.find? (fun p => p.1 == fileId && p.2 == t.id)).isSome then db
      else { db with fileTags := db.fileTags ++ [(fileId, t.id)] } := by
  simp only [addTagStep]
  rw [hf]

theorem addTagStep_new {db : TagDB} {fileId name : String}
    (hf : db.tags.find? (fun u => u.name == normalizeTag name) = none) :
    addTagStep fileId db name =
      (if (db.fileTags.find? (fun p =>
            p.1 == fileId && p.2 == freshTagId db.nextId)).isSome then
        { db with
          tags := db.tags ++ [⟨freshTagId db.nextId, normalizeTag name⟩],
          nextId := db.nextId + 1 }
      else
        { db with
          tags := db.tags ++ [⟨freshTagId db.nextId, normalizeTag name⟩],
          nextId := db.nextId + 1,
          fileTags := db.fileTags ++ [(fileId, freshTagId db.nextId)] }) := by
  simp only [addTagStep]
  rw [hf]

theorem addTagStep_wf {fileId name : String} {db : TagDB} (hwf : TagDBWF db) :
    TagDBWF (addTagStep fileId db name) := by
  obtain ⟨hnames, hids, hfresh⟩ := hwf
  cases hf : db.tags.find? (fun u => u.name == normalizeTag name) with
  | some t =>
    rw [addTagStep_found hf]
    by_cases hl : (db.fileTags.find? (fun p => p.1 == fileId && p.2 == t.id)).isSome
    · rw [if_pos hl]; exact ⟨hnames, hids, hfresh⟩
    · rw [if_neg hl]; exact ⟨hnames, hids, hfresh⟩
  | none =>
    rw [addTagStep_new hf]
    have hnames' : ((db.tags ++ [(⟨freshTagId db.nextId, normalizeTag name⟩ : Tag)]).map
        Tag.name).Nodup := by
      rw [List.map_append]
      refine List.Nodup.append hnames (by simp) ?_
      intro x hx hx2
      simp only [List.map_cons, List.map_nil, List.mem_singleton] at hx2
      rcases List.mem_map.1 hx with ⟨u, hu, hux⟩
      exact tagFind_none hf u hu (hux.trans hx2)
    have hids' : ((db.tags ++ [(⟨freshTagId db.nextId, normalizeTag name⟩ : Tag)]).map
        Tag.id).Nodup := by
      rw [List.map_append]
      refine List.Nodup.append hids (by simp) ?_
      intro x hx hx2
      simp only [List.map_cons, List.map_nil, List.mem_singleton] at hx2
      rcases List.mem_map.1 hx with ⟨u, hu, hux⟩
      exact hfresh u hu db.nextId (Nat.le_refl _) (hux.trans hx2)
    have hfresh' : ∀ t ∈ db.tags ++ [(⟨freshTagId db.nextId, normalizeTag name⟩ : Tag)],
        ∀ k, db.nextId + 1 ≤ k → t.id ≠ freshTagId k := by
      intro t ht k hk
      rcases List.mem_append.1 ht with ht | ht
      · exact hfresh t ht k (Nat.le_of_succ_le hk)
      · simp only [List.mem_singleton] at ht
        subst ht
        intro hc
        have hke := freshTagId_inj hc
        omega
    by_cases hl : (db.fileTags.find? (fun p =>
        p.1 == fileId && p.2 == freshTagId db.nextId)).isSome
    · rw [if_pos hl]; exact ⟨hnames', hids', hfresh'⟩
    · rw [if_neg hl]; exact ⟨hnames', hids', hfresh'⟩

theorem addTagsToFile_wf {fileId : String} {names : List String} {db : TagDB}
    (hwf : TagDBWF db) : TagDBWF (addTagsToFile fileId names db) := by
  induction names generalizing db with
  | nil => exact hwf
  | cons name rest ih => exact ih (addTagStep_wf hwf)

theorem linkedName_addTagStep {fileId name n : String} {db : TagDB} (hwf : TagDBWF db) :
    linkedName fileId (addTagStep fileId db name) n ↔
      (linkedName fileId db n ∨ n = normalizeTag name) := by
  obtain ⟨hnames, hids, hfresh⟩ := hwf
  cases hf : db.tags.find? (fun u => u.name == normalizeTag name) with
  | some t =>
    obtain ⟨htm, htn⟩ := tagFind_some hf
    rw [addTagStep_found hf]
    by_cases hl : (db.fileTags.find? (fun p => p.1 == fileId && p.2 == t.id)).isSome
    · rw [if_pos hl]
      constructor
      · exact Or.inl
      · rintro (h | rfl)
        · exact h
        · exact ⟨t, htm, htn, linkFind_isSome_iff.1 hl⟩
    · rw [if_neg hl]
      constructor
      · rintro ⟨u, hu, hun, hul⟩
        rcases List.mem_append.1 hul with hul | hul
        · exact Or.inl ⟨u, hu, hun, hul⟩
        · simp only [List.mem_singleton, Prod.mk.injEq] at hul
          have hut : u = t := List.inj_on_of_nodup_map hids hu htm hul.2
          exact Or.inr (hun.symm.trans (hut ▸ htn) |>.symm ▸ rfl)
      · rintro (⟨u, hu, hun, hul⟩ | rfl)
        · exact ⟨u, hu, hun, List.mem_append_left _ hul⟩
        · exact ⟨t, htm, htn, List.mem_append_right _ (List.mem_singleton.2 rfl)⟩
  | none =>
    rw [addTagStep_new hf]
    by_cases hl : (db.fileTags.find? (fun p =>
        p.1 == fileId && p.2 == freshTagId db.nextId)).isSome
    · rw [if_pos hl]
      constructor
      · rintro ⟨u, hu, hun, hul⟩
        rcases List.mem_append.1 hu with hu | hu
        · exact Or.inl ⟨u, hu, hun, hul⟩
        · simp only [List.mem_singleton] at hu
          subst hu
          exact Or.inr hun.symm
      · rintro (⟨u, hu, hun, hul⟩ | rfl)
        · exact ⟨u, List.mem_append_left _ hu, hun, hul⟩
        · refine ⟨⟨freshTagId db.nextId, normalizeTag name⟩,
            List.mem_append_right _ (List.mem_singleton.2 rfl), rfl, ?_⟩
          exact linkFind_isSome_iff.1 hl
    · rw [if_neg hl]
      constructor
      · rintro ⟨u, hu, hun, hul⟩
        rcases List.mem_append.1 hu with hu | hu
        · rcases List.mem_append.1 hul with hul | hul
          · exact Or.inl ⟨u, hu, hun, hul⟩
          · simp only [List.mem_singleton, Prod.mk.injEq] at hul
            exact absurd hul.2 (hfresh u hu db.nextId (Nat.le_refl _))
        · simp only [List.mem_singleton] at hu
          subst hu
          exact Or.inr hun.symm
      · rintro (⟨u, hu, hun, hul⟩ | rfl)
        · exact ⟨u, List.mem_append_left _ hu, hun, List.mem_append_left _ hul⟩
        · refine ⟨⟨freshTagId db.nextId, normalizeTag name⟩,
            List.mem_append_right _ (List.mem_singleton.2 rfl), rfl, ?_⟩
          exact List.mem_append_right _ (List.mem_singleton.2 rfl)

theorem linkedName_addTagsToFile {fileId n : String} {names : List String} {db : TagDB}
    (hwf : TagDBWF db) :
    linkedName fileId (addTagsToFile fileId names db) n ↔
      (linkedName fileId db n ∨ n ∈ names.map normalizeTag) := by
  induction names generalizing db with
  | nil => simp [addTagsToFile]
  | cons name rest ih =>
    have hstep : addTagsToFile fileId (name :: rest) db =
        addTagsToFile fileId rest (addTagStep fileId db name) := rfl
    rw [hstep, ih (addTagStep_wf hwf), linkedName_addTagStep hwf]
    simp only [List.map_cons, List.mem_cons]
    tauto

theorem addTagStep_noop {fileId name : String} {db : TagDB} (hwf : TagDBWF db)
    (hlink : linkedName fileId db (normalizeTag name)) :
    addTagStep fileId db name = db := by
  obtain ⟨t, htm, htn, htl⟩ := hlink
  cases hf : db.tags.find? (fun u => u.name == normalizeTag name) with
  | none => exact absurd htn (tagFind_none hf t htm)
  | some t₀ =>
    obtain ⟨ht₀m, ht₀n⟩ := tagFind_some hf
    have ht₀t : t₀ = t := by
      apply List.inj_on_of_nodup_map hwf.1 ht₀m htm
      rw [ht₀n, htn]
    rw [addTagStep_found hf, ht₀t, if_pos (linkFind_isSome_iff.2 htl)]

/-- Claim C9: `addTagsToFile` normalizes names (lowercase, trim), creates a
tag only when no tag with the normalized name exists, and links only when
the `(fileId, tagId)` pair is missing.  Consequently (on a well-formed tag
state): the call is idempotent — repeating it changes nothing — the set of
names linked to a file after a call is the old set plus the normalized
submitted names and is therefore independent of the processing order, and
`["Foo", "foo ", "FOO"]` from an empty state yields exactly one tag named
`"foo"` linked exactly once to the file. -/
theorem C9_attachTags_idempotent :
    addTagsToFile "f1" ["Foo", "foo ", "FOO"] ⟨[], [], 0⟩ =
      ⟨[⟨freshTagId 0, "foo"⟩], [("f1", freshTagId 0)], 1⟩ ∧
    (∀ (fileId : String) (names : List String) (db : TagDB), TagDBWF db →
      addTagsToFile fileId names (addTagsToFile fileId names db) =
        addTagsToFile fileId names db) ∧
    (∀ (fileId n : String) (names : List String) (db : TagDB), TagDBWF db →
      (linkedName fileId (addTagsToFile fileId names db) n ↔
        (linkedName fileId db n ∨ n ∈ names.map normalizeTag))) ∧
    (∀ (fileId n : String) (names₁ names₂ : List String) (db : TagDB), TagDBWF db →
      List.Perm names₁ names₂ →
      (linkedName fileId (addTagsToFile fileId names₁ db) n ↔
        linkedName fileId (addTagsToFile fileId names₂ db) n)) := by
  refine ⟨by decide, ?_, ?_, ?_⟩
  · intro fileId names db hwf
    have key : ∀ (ns : List String) (db' : TagDB), TagDBWF db' →
        (∀ name ∈ ns, linkedName fileId db' (normalizeTag name)) →
        addTagsToFile fileId ns db' = db' := by
      intro ns
      induction ns with
      | nil => intro db' _ _; rfl
      | cons name rest ih =>
        intro db' hwf' hall
        have hstep := addTagStep_noop hwf' (hall name (List.mem_cons_self name rest))
        show addTagsToFile fileId rest (addTagStep fileId db' name) = db'
        rw [hstep]
        exact ih db' hwf' (fun m hm => hall m (List.mem_cons_of_mem _ hm))
    refine key names _ (addTagsToFile_wf hwf) ?_
    intro name hn
    exact (linkedName_addTagsToFile hwf).2 (Or.inr (List.mem_map_of_mem _ hn))
  · intro fileId n names db hwf
    exact linkedName_addTagsToFile hwf
  · intro fileId n names₁ names₂ db hwf hperm
    rw [linkedName_addTagsToFile hwf, linkedName_addTagsToFile hwf]
    have hmem : (n ∈ names₁.map normalizeTag) ↔ (n ∈ names₂.map normalizeTag) :=
      (hperm.map normalizeTag).mem_iff
    tauto

/-- Witness for C9: running the concrete call twice equals running it once. -/
theorem C9_attachTags_idempotent_witness :
    addTagsToFile "f1" ["Foo", "foo ", "FOO"]
        (addTagsToFile "f1" ["Foo", "foo ", "FOO"] ⟨[], [], 0⟩) =
      addTagsToFile "f1" ["Foo", "foo ", "FOO"] ⟨[], [], 0⟩ :=
  C9_attachTags_idempotent.2.1 "f1" ["Foo", "foo ", "FOO"] ⟨[], [], 0⟩
    ⟨by simp, by simp, by simp⟩


/-! ## Lemma library: the grouping fold -/

/-- Every value stored by the grouping fold comes from the initial state or
the processed list. -/
theorem groupFold_values_from {ctp : List (String × String)} {P : File → Prop} :
    ∀ (l : List File) (st : List (String × File) × List (String × String)),
      (∀ kv ∈ st.1, P kv.2) → (∀ f ∈ l, P f) →
      ∀ kv ∈ (l.foldl (groupStep ctp) st).1, P kv.2 := by
  intro l
  induction l with
  | nil => intro st h0 _ kv hkv; exact h0 kv hkv
  | cons f t ih =>
    intro st h0 hl kv hkv
    refine ih (groupStep ctp st f) ?_ (fun g hg => hl g (List.mem_cons_of_mem _ hg)) kv hkv
    intro kv' hkv'
    have hf : P f := hl f (List.mem_cons_self f t)
    simp only [groupStep] at hkv'
    split at hkv'
    · split at hkv'
      · rcases mem_jsSet hkv' with h | h
        · rw [h]; exact hf
        · exact h0 kv' h
      · exact h0 kv' hkv'
    · rcases mem_jsSet hkv' with h | h
      · rw [h]; exact hf
      · exact h0 kv' h

theorem groupAndFilterFiles_subset {l : List File} {g : File}
    (hg : g ∈ groupAndFilterFiles l) : g ∈ l := by
  unfold groupAndFilterFiles at hg
  rcases List.mem_map.1 hg with ⟨kv, hkv, hsnd⟩
  have h := @groupFold_values_from (buildChildToParent l) (fun f => f ∈ l) l ([], [])
    (by intro kv h; cases h) (fun f hf => hf) kv hkv
  rwa [hsnd] at h

theorem getFiles_eq (requester : Option String) (all : List File) :
    getFiles requester all =
      sortDesc ((groupAndFilterFiles (visibleSorted requester all)).map
        (sanitizeIfNotOwner requester)) := rfl

/-- Every listed record is the sanitization of a stored record that passed
the visibility filter. -/
theorem getFiles_mem_spec {requester : Option String} {all : List File} {f : File}
    (hf : f ∈ getFiles requester all) :
    ∃ g, g ∈ all ∧ visibleFilter requester g = true ∧
      f = sanitizeIfNotOwner requester g := by
  rw [getFiles_eq] at hf
  rcases List.mem_map.1 (mem_sortDesc.1 hf) with ⟨g, hg, hsan⟩
  have hg2 : g ∈ visibleSorted requester all := groupAndFilterFiles_subset hg
  have hg3 : g ∈ all.filter (visibleFilter requester) := mem_sortAsc.1 hg2
  exact ⟨g, (List.mem_filter.1 hg3).1, (List.mem_filter.1 hg3).2, hsan.symm⟩

theorem sanitizeIfNotOwner_userId (requester : Option String) (g : File) :
    (sanitizeIfNotOwner requester g).userId = g.userId := by
  unfold sanitizeIfNotOwner
  by_cases h : sameOwner requester g.userId = true
  · rw [if_pos h]
  · rw [if_neg h]

theorem sanitizeIfNotOwner_id (requester : Option String) (g : File) :
    (sanitizeIfNotOwner requester g).id = g.id := by
  unfold sanitizeIfNotOwner
  by_cases h : sameOwner requester g.userId = true
  · rw [if_pos h]
  · rw [if_neg h]

theorem sanitizeIfNotOwner_parentId (requester : Option String) (g : File) :
    (sanitizeIfNotOwner requester g).parentId = g.parentId := by
  unfold sanitizeIfNotOwner
  by_cases h : sameOwner requester g.userId = true
  · rw [if_pos h]
  · rw [if_neg h]

theorem sanitizeIfNotOwner_createdAt (requester : Option String) (g : File) :
    (sanitizeIfNotOwner requester g).createdAt = g.createdAt := by
  unfold sanitizeIfNotOwner
  by_cases h : sameOwner requester g.userId = true
  · rw [if_pos h]
  · rw [if_neg h]

theorem sanitizeIfNotOwner_isPrivate (requester : Option String) (g : File) :
    (sanitizeIfNotOwner requester g).isPrivate = g.isPrivate := by
  unfold sanitizeIfNotOwner
  by_cases h : sameOwner requester g.userId = true
  · rw [if_pos h]
  · rw [if_neg h]

theorem visibleFilter_sanitize (requester r2 : Option String) (g : File) :
    visibleFilter requester (sanitizeIfNotOwner r2 g) = visibleFilter requester g := by
  unfold visibleFilter
  cases requester with
  | none => rw [sanitizeIfNotOwner_isPrivate]
  | some u => rw [sanitizeIfNotOwner_isPrivate, sanitizeIfNotOwner_userId]

theorem sanitizeIfNotOwner_idem (requester : Option String) (g : File) :
    sanitizeIfNotOwner requester (sanitizeIfNotOwner requester g) =
      sanitizeIfNotOwner requester g := by
  unfold sanitizeIfNotOwner
  by_cases h : sameOwner requester g.userId = true
  · rw [if_pos h, if_pos h]
  · rw [if_neg h]
    have h2 : ¬(sameOwner requester ({ g with pin := none } : File).userId = true) := h
    rw [if_neg h2]

/-! ## Lemma library: mapping a field-preserving function through the pipeline -/

theorem jsGet_mapValues {h : File → File} (m : List (String × File)) (k : String) :
    jsGet (m.map (fun kv => (kv.1, h kv.2))) k = (jsGet m k).map h := by
  induction m with
  | nil => rfl
  | cons p t ih =>
    cases hp : (p.1 == k) with
    | true => simp [jsGet, hp]
    | false => simp [jsGet, hp, ih]

theorem jsSet_mapValues {h : File → File} (m : List (String × File)) (k : String) (v : File) :
    jsSet (m.map (fun kv => (kv.1, h kv.2))) k (h v) =
      (jsSet m k v).map (fun kv => (kv.1, h kv.2)) := by
  induction m with
  | nil => rfl
  | cons p t ih =>
    cases hp : (p.1 == k) with
    | true => simp [jsSet, hp]
    | false => simp [jsSet, hp, ih]

theorem buildChildToParent_map {h : File → File}
    (hid : ∀ f, (h f).id = f.id) (hpar : ∀ f, (h f).parentId = f.parentId)
    (l : List File) : buildChildToParent (l.map h) = buildChildToParent l := by
  suffices hgen : ∀ (l : List File) (m : List (String × String)),
      (l.map h).foldl
        (fun m f => if strOptTruthy f.parentId then jsSet m f.id (f.parentId.getD "") else m) m =
      l.foldl
        (fun m f => if strOptTruthy f.parentId then jsSet m f.id (f.parentId.getD "") else m) m by
    exact hgen l []
  intro l
  induction l with
  | nil => intro m; rfl
  | cons f t ih =>
    intro m
    simp only [List.map_cons, List.foldl_cons, hid, hpar]
    exact ih _

theorem groupFold_map {ctp : List (String × String)} {h : File → File}
    (hid : ∀ f, (h f).id = f.id) (hcr : ∀ f, (h f).createdAt = f.createdAt) :
    ∀ (l : List File) (groups : List (String × File)) (cache : List (String × String)),
      (l.map h).foldl (groupStep ctp) (groups.map (fun kv => (kv.1, h kv.2)), cache) =
        ((l.foldl (groupStep ctp) (groups, cache)).1.map (fun kv => (kv.1, h kv.2)),
         (l.foldl (groupStep ctp) (groups, cache)).2) := by
  intro l
  induction l with
  | nil => intro groups cache; rfl
  | cons f t ih =>
    intro groups cache
    simp only [List.map_cons, List.foldl_cons]
    have hstep : groupStep ctp (groups.map (fun kv => (kv.1, h kv.2)), cache) (h f) =
        ((groupStep ctp (groups, cache) f).1.map (fun kv => (kv.1, h kv.2)),
         (groupStep ctp (groups, cache) f).2) := by
      simp only [groupStep, hid]
      cases hjs : jsGet groups (findRootCached ctp cache f.id).1 with
      | some existing =>
        rw [jsGet_mapValues, hjs]
        simp only [Option.map_some', hcr]
        by_cases hlt : existing.createdAt < f.createdAt
        · rw [if_pos hlt, if_pos hlt, jsSet_mapValues]
        · rw [if_neg hlt, if_neg hlt]
      | none =>
        rw [jsGet_mapValues, hjs]
        simp only [Option.map_none']
        rw [jsSet_mapValues]
    rw [hstep]
    exact ih (groupStep ctp (groups, cache) f).1 (groupStep ctp (groups, cache) f).2

theorem groupAndFilterFiles_map {h : File → File}
    (hid : ∀ f, (h f).id = f.id) (hpar : ∀ f, (h f).parentId = f.parentId)
    (hcr : ∀ f, (h f).createdAt = f.createdAt) (l : List File) :
    groupAndFilterFiles (l.map h) = (groupAndFilterFiles l).map h := by
  unfold groupAndFilterFiles
  rw [buildChildToParent_map hid hpar]
  have hfold := @groupFold_map (buildChildToParent l) h hid hcr l [] []
  simp only [List.map_nil] at hfold
  rw [hfold, List.map_map, List.map_map]
  rfl

theorem insertAsc_map {h : File → File} (hcr : ∀ f, (h f).createdAt = f.createdAt)
    (f : File) (l : List File) :
    insertAsc (h f) (l.map h) = (insertAsc f l).map h := by
  induction l with
  | nil => rfl
  | cons g gs ih =>
    simp only [List.map_cons, insertAsc, hcr]
    by_cases hlt : f.createdAt < g.createdAt
    · rw [if_pos hlt, if_pos hlt]; rfl
    · rw [if_neg hlt, if_neg hlt]
      simp only [List.map_cons, ih]

theorem sortAsc_map {h : File → File} (hcr : ∀ f, (h f).createdAt = f.createdAt)
    (l : List File) : sortAsc (l.map h) = (sortAsc l).map h := by
  suffices hgen : ∀ (l acc : List File),
      (l.map h).foldl (fun acc f => insertAsc f acc) (acc.map h) =
        (l.foldl (fun acc f => insertAsc f acc) acc).map h by
    exact hgen l []
  intro l
  induction l with
  | nil => intro acc; rfl
  | cons f t ih =>
    intro acc
    simp only [List.map_cons, List.foldl_cons, insertAsc_map hcr]
    exact ih _

theorem insertDesc_map {h : File → File} (hcr : ∀ f, (h f).createdAt = f.createdAt)
    (f : File) (l : List File) :
    insertDesc (h f) (l.map h) = (insertDesc f l).map h := by
  induction l with
  | nil => rfl
  | cons g gs ih =>
    simp only [List.map_cons, insertDesc, hcr]
    by_cases hlt : g.createdAt < f.createdAt
    · rw [if_pos hlt, if_pos hlt]; rfl
    · rw [if_neg hlt, if_neg hlt]
      simp only [List.map_cons, ih]

theorem sortDesc_map {h : File → File} (hcr : ∀ f, (h f).createdAt = f.createdAt)
    (l : List File) : sortDesc (l.map h) = (sortDesc l).map h := by
  suffices hgen : ∀ (l acc : List File),
      (l.map h).foldl (fun acc f => insertDesc f acc) (acc.map h) =
        (l.foldl (fun acc f => insertDesc f acc) acc).map h by
    exact hgen l []
  intro l
  induction l with
  | nil => intro acc; rfl
  | cons f t ih =>
    intro acc
    simp only [List.map_cons, List.foldl_cons, insertDesc_map hcr]
    exact ih _

theorem filter_map_pred {h : File → File} {p : File → Bool}
    (hpres : ∀ f, p (h f) = p f) (l : List File) :
    (l.map h).filter p = (l.filter p).map h := by
  induction l with
  | nil => rfl
  | cons f t ih =>
    simp only [List.map_cons, List.filter_cons, hpres]
    cases hp : p f with
    | true => simp only [if_true, List.map_cons, ih]
    | false => simp only [Bool.false_eq_true, if_false, ih]

/-- Pre-sanitizing the stored records does not change the listing: `getFiles`
only ever exposes a record through `sanitizeIfNotOwner`, and the pipeline
reads no field that sanitization changes. -/
theorem getFiles_map_sanitize (requester : Option String) (all : List File) :
    getFiles requester (all.map (sanitizeIfNotOwner requester)) = getFiles requester all := by
  rw [getFiles_eq, getFiles_eq]
  unfold visibleSorted
  rw [filter_map_pred (visibleFilter_sanitize requester requester),
    sortAsc_map (sanitizeIfNotOwner_createdAt requester),
    groupAndFilterFiles_map (sanitizeIfNotOwner_id requester)
      (sanitizeIfNotOwner_parentId requester) (sanitizeIfNotOwner_createdAt requester),
    List.map_map]
  have hcomp : sanitizeIfNotOwner requester ∘ sanitizeIfNotOwner requester =
      sanitizeIfNotOwner requester := by
    funext g
    exact sanitizeIfNotOwner_idem requester g
  rw [hcomp]

theorem map_eq_of_forall₂ {s : File → File} {l₁ l₂ : List File}
    (h : List.Forall₂ (fun f g => s f = s g) l₁ l₂) : l₁.map s = l₂.map s := by
  induction h with
  | nil => rfl
  | cons hfg _ ih => simp only [List.map_cons, hfg, ih]

/-! ## Claim C5 -/

/-- Claim C5: the visible listing strips the `pin` field from every returned
record the requester does not own (the configured PIN value of another
user's record never appears in the requester's listing), keeps the `pin` on
the requester's own records, and — the hyperproperty — the listing output is
identical for any two record sets that differ only in the `pin` values of
records the requester does not own.  Concretely, `u2`'s listing of a record
owned by `u1` with PIN `9999` carries no PIN, while `u1`'s own listing keeps
`9999`. -/
theorem C5_pin_stripped_for_non_owners :
    (∀ (requester : Option String) (all : List File) (f : File),
       f ∈ getFiles requester all → sameOwner requester f.userId = false →
       f.pin = none) ∧
    (∀ (requester : Option String) (all : List File) (f : File),
       f ∈ getFiles requester all →
       ∃ g, g ∈ all ∧ (sameOwner requester g.userId = true → f = g) ∧
         (sameOwner requester g.userId = false → f = { g with pin := none })) ∧
    (∀ (requester : Option String) (all₁ all₂ : List File),
       List.Forall₂ (fun f g =>
         sanitizeIfNotOwner requester f = sanitizeIfNotOwner requester g) all₁ all₂ →
       getFiles requester all₁ = getFiles requester all₂) ∧
    getFiles (some "u2") [filePinned] = [{ filePinned with pin := none }] ∧
    getFiles (some "u1") [filePinned] = [filePinned] := by
  refine ⟨?_, ?_, ?_, by decide, by decide⟩
  · intro requester all f hf hnown
    rcases getFiles_mem_spec hf with ⟨g, hgall, hgvis, hsan⟩
    rw [hsan]
    unfold sanitizeIfNotOwner
    have howner : sameOwner requester g.userId = false := by
      rw [hsan, sanitizeIfNotOwner_userId] at hnown
      exact hnown
    rw [if_neg (by simp [howner])]
  · intro requester all f hf
    rcases getFiles_mem_spec hf with ⟨g, hgall, hgvis, hsan⟩
    refine ⟨g, hgall, fun hown => ?_, fun hnown => ?_⟩
    · rw [hsan]; unfold sanitizeIfNotOwner; rw [if_pos hown]
    · rw [hsan]; unfold sanitizeIfNotOwner; rw [if_neg (by simp [hnown])]
  · intro requester all₁ all₂ hrel
    have hmap : all₁.map (sanitizeIfNotOwner requester) =
        all₂.map (sanitizeIfNotOwner requester) := map_eq_of_forall₂ hrel
    calc getFiles requester all₁
        = getFiles requester (all₁.map (sanitizeIfNotOwner requester)) :=
          (getFiles_map_sanitize requester all₁).symm
      _ = getFiles requester (all₂.map (sanitizeIfNotOwner requester)) := by rw [hmap]
      _ = getFiles requester all₂ := getFiles_map_sanitize requester all₂

/-- Witness for C5: the non-owner clause at the concrete `9999` record. -/
theorem C5_pin_stripped_witness :
    ({ filePinned with pin := none } : File).pin = none :=
  C5_pin_stripped_for_non_owners.1 (some "u2") [filePinned]
    { filePinned with pin := none } (by decide) (by decide)


/-! ## Lemma library: acyclic parent maps (rank functions) -/

theorem rank_lt_parent {ctp : List (String × String)} {rank : String → Nat}
    (hrk : RankOK ctp rank) {id p : String} (h : jsGet ctp id = some p) :
    rank p < rank id :=
  hrk.1 (id, p) (mem_of_jsGet_eq_some h)

theorem chainRoot_congr_fuel {ctp : List (String × String)} {rank : String → Nat}
    (hrk : RankOK ctp rank) :
    ∀ (fuel₁ fuel₂ : Nat) (id : String), rank id < fuel₁ → rank id < fuel₂ →
      chainRoot ctp fuel₁ id = chainRoot ctp fuel₂ id := by
  intro fuel₁
  induction fuel₁ with
  | zero => intro fuel₂ id h1 _; exact absurd h1 (Nat.not_lt_zero _)
  | succ n ih =>
    intro fuel₂ id h1 h2
    cases fuel₂ with
    | zero => exact absurd h2 (Nat.not_lt_zero _)
    | succ m =>
      cases hg : jsGet ctp id with
      | none => simp [chainRoot, hg]
      | some p =>
        simp only [chainRoot, hg]
        have hp := rank_lt_parent hrk hg
        exact ih m p (by omega) (by omega)

theorem chainRoot_eq_top {ctp : List (String × String)} {rank : String → Nat}
    (hrk : RankOK ctp rank) {fuel : Nat} {id : String} (h : rank id < fuel) :
    chainRoot ctp fuel id = chainRootTop ctp id :=
  chainRoot_congr_fuel hrk fuel (ctp.length + 1) id h
    (Nat.lt_succ_of_le (hrk.2 id))

theorem chainRootTop_of_no_key {ctp : List (String × String)} {r : String}
    (h : jsGet ctp r = none) : chainRootTop ctp r = r := by
  unfold chainRootTop
  simp [chainRoot, h]

theorem chainRootTop_parent {ctp : List (String × String)} {rank : String → Nat}
    (hrk : RankOK ctp rank) {id p : String} (h : jsGet ctp id = some p) :
    chainRootTop ctp id = chainRootTop ctp p := by
  have h1 : chainRootTop ctp id = chainRoot ctp ctp.length p := by
    unfold chainRootTop
    simp [chainRoot, h]
  rw [h1]
  have hp := rank_lt_parent hrk h
  exact chainRoot_eq_top hrk (by have := hrk.2 id; omega)

theorem chainRootTop_no_key {ctp : List (String × String)} {rank : String → Nat}
    (hrk : RankOK ctp rank) (id : String) :
    jsGet ctp (chainRootTop ctp id) = none := by
  have key : ∀ (n : Nat) (id : String), rank id < n →
      jsGet ctp (chainRootTop ctp id) = none := by
    intro n
    induction n with
    | zero => intro id h; exact absurd h (Nat.not_lt_zero _)
    | succ m ih =>
      intro id h
      cases hg : jsGet ctp id with
      | none => rw [chainRootTop_of_no_key hg]; exact hg
      | some p =>
        rw [chainRootTop_parent hrk hg]
        have hp := rank_lt_parent hrk hg
        exact ih p (by omega)
  exact key (rank id + 1) id (Nat.lt_succ_self _)

theorem chainRootTop_fix {ctp : List (String × String)} {rank : String → Nat}
    (hrk : RankOK ctp rank) (id : String) :
    chainRootTop ctp (chainRootTop ctp id) = chainRootTop ctp id :=
  chainRootTop_of_no_key (chainRootTop_no_key hrk id)

theorem walk_root_eq_top {ctp : List (String × String)} {rank : String → Nat}
    (hrk : RankOK ctp rank) :
    ∀ (fuel : Nat) (id : String) (path visited : List String),
      rank id < fuel → (∀ v ∈ visited, rank id < rank v) →
      (findRootWalk ctp fuel id path visited).root = chainRootTop ctp id := by
  intro fuel
  induction fuel with
  | zero => intro id path visited h _; exact absurd h (Nat.not_lt_zero _)
  | succ n ih =>
    intro id path visited h hvis
    cases hg : jsGet ctp id with
    | none => simp [findRootWalk, hg, chainRootTop_of_no_key hg]
    | some p =>
      have hnv : id ∉ visited := fun hv => absurd (hvis id hv) (Nat.lt_irrefl _)
      have hstep : findRootWalk ctp (n + 1) id path visited =
          findRootWalk ctp n p (path ++ [id]) (id :: visited) := by
        simp [findRootWalk, hg, hnv]
      rw [hstep, chainRootTop_parent hrk hg]
      have hp := rank_lt_parent hrk hg
      refine ih p (path ++ [id]) (id :: visited) (by omega) ?_
      intro v hv
      rcases List.mem_cons.1 hv with rfl | hv
      · exact hp
      · exact Nat.lt_trans hp (hvis v hv)

theorem walk_path_roots {ctp : List (String × String)} {rank : String → Nat}
    (hrk : RankOK ctp rank) :
    ∀ (fuel : Nat) (id : String) (path visited : List String),
      rank id < fuel → (∀ v ∈ visited, rank id < rank v) →
      ∀ n ∈ (findRootWalk ctp fuel id path visited).path,
        n ∈ path ∨ chainRootTop ctp n = chainRootTop ctp id := by
  intro fuel
  induction fuel with
  | zero => intro id path visited h _; exact absurd h (Nat.not_lt_zero _)
  | succ m ih =>
    intro id path visited h hvis n hn
    cases hg : jsGet ctp id with
    | none =>
      simp only [findRootWalk, hg] at hn
      exact Or.inl hn
    | some p =>
      have hnv : id ∉ visited := fun hv => absurd (hvis id hv) (Nat.lt_irrefl _)
      have hstep : findRootWalk ctp (m + 1) id path visited =
          findRootWalk ctp m p (path ++ [id]) (id :: visited) := by
        simp [findRootWalk, hg, hnv]
      rw [hstep] at hn
      have hp := rank_lt_parent hrk hg
      have hrec := ih p (path ++ [id]) (id :: visited) (by omega) ?hv n hn
      case hv =>
        intro v hv
        rcases List.mem_cons.1 hv with rfl | hv
        · exact hp
        · exact Nat.lt_trans hp (hvis v hv)
      rcases hrec with hmem | htop
      · rcases List.mem_append.1 hmem with hmem | hmem
        · exact Or.inl hmem
        · simp only [List.mem_singleton] at hmem
          subst hmem
          exact Or.inr rfl
      · rw [← chainRootTop_parent hrk hg] at htop
        exact Or.inr htop

theorem findRoot_eq_top {ctp : List (String × String)} {rank : String → Nat}
    (hrk : RankOK ctp rank) (id : String) :
    findRoot ctp id = chainRootTop ctp id :=
  walk_root_eq_top hrk (ctp.length + 1) id [] []
    (Nat.lt_succ_of_le (hrk.2 id)) (by intro v hv; cases hv)

theorem cacheOK_foldl {ctp : List (String × String)} {r : String} :
    ∀ (nodes : List String) (c : List (String × String)),
      (∀ pr ∈ c, pr.2 = chainRootTop ctp pr.1) →
      (∀ n ∈ nodes, chainRootTop ctp n = r) →
      ∀ pr ∈ nodes.foldl (fun c node => jsSet c node r) c,
        pr.2 = chainRootTop ctp pr.1 := by
  intro nodes
  induction nodes with
  | nil => intro c hc _ pr hpr; exact hc pr hpr
  | cons n rest ih =>
    intro c hc hall pr hpr
    refine ih (jsSet c n r) ?_ (fun m hm => hall m (List.mem_cons_of_mem _ hm)) pr hpr
    intro pr' hpr'
    rcases mem_jsSet hpr' with h | h
    · rw [h]
      exact (hall n (List.mem_cons_self n rest)).symm
    · exact hc pr' h

theorem findRootCached_spec {ctp : List (String × String)} {rank : String → Nat}
    (hrk : RankOK ctp rank) {cache : List (String × String)} {id : String}
    (hc : ∀ pr ∈ cache, pr.2 = chainRootTop ctp pr.1) :
    (findRootCached ctp cache id).1 = chainRootTop ctp id ∧
    (∀ pr ∈ (findRootCached ctp cache id).2, pr.2 = chainRootTop ctp pr.1) := by
  unfold findRootCached
  cases hg : jsGet cache id with
  | some r =>
    exact ⟨(hc (id, r) (mem_of_jsGet_eq_some hg)), hc⟩
  | none =>
    simp only []
    have hroot : (findRootWalk ctp (ctp.length + 1) id [] []).root =
        chainRootTop ctp id :=
      walk_root_eq_top hrk (ctp.length + 1) id [] []
        (Nat.lt_succ_of_le (hrk.2 id)) (by intro v hv; cases hv)
    have hpath : ∀ n ∈ (findRootWalk ctp (ctp.length + 1) id [] []).path,
        chainRootTop ctp n = (findRootWalk ctp (ctp.length + 1) id [] []).root := by
      intro n hn
      rcases walk_path_roots hrk (ctp.length + 1) id [] []
          (Nat.lt_succ_of_le (hrk.2 id)) (by intro v hv; cases hv) n hn with hmem | htop
      · cases hmem
      · rw [htop, hroot]
    have hc1 : ∀ pr ∈ (findRootWalk ctp (ctp.length + 1) id [] []).path.foldl
        (fun c node => jsSet c node (findRootWalk ctp (ctp.length + 1) id [] []).root)
        cache, pr.2 = chainRootTop ctp pr.1 :=
      cacheOK_foldl _ cache hc hpath
    constructor
    · exact hroot
    · intro pr hpr
      rcases mem_jsSet hpr with h | h
      · rw [h]
        show (findRootWalk ctp (ctp.length + 1) id [] []).root =
          chainRootTop ctp (findRootWalk ctp (ctp.length + 1) id [] []).root
        rw [hroot, chainRootTop_fix hrk]
      · exact hc1 pr h

theorem groupStep_inv {ctp : List (String × String)} {rank : String → Nat}
    (hrk : RankOK ctp rank) {st : List (String × File) × List (String × String)} {f : File}
    (hcache : ∀ pr ∈ st.2, pr.2 = chainRootTop ctp pr.1)
    (hgroups : ∀ kv ∈ st.1, kv.1 = chainRootTop ctp kv.2.id)
    (hnodup : (mapKeysX st.1).Nodup) :
    (∀ pr ∈ (groupStep ctp st f).2, pr.2 = chainRootTop ctp pr.1) ∧
    (∀ kv ∈ (groupStep ctp st f).1, kv.1 = chainRootTop ctp kv.2.id) ∧
    (mapKeysX (groupStep ctp st f).1).Nodup := by
  obtain ⟨hrc1, hrc2⟩ := @findRootCached_spec ctp rank hrk st.2 f.id hcache
  simp only [groupStep]
  split
  · split
    · refine ⟨hrc2, ?_, keysNodup_jsSet hnodup⟩
      intro kv hkv
      rcases mem_jsSet hkv with h | h
      · rw [h, hrc1]
      · exact hgroups kv h
    · exact ⟨hrc2, hgroups, hnodup⟩
  · refine ⟨hrc2, ?_, keysNodup_jsSet hnodup⟩
    intro kv hkv
    rcases mem_jsSet hkv with h | h
    · rw [h, hrc1]
    · exact hgroups kv h

theorem groupFold_inv {ctp : List (String × String)} {rank : String → Nat}
    (hrk : RankOK ctp rank) :
    ∀ (l : List File) (st : List (String × File) × List (String × String)),
      (∀ pr ∈ st.2, pr.2 = chainRootTop ctp pr.1) →
      (∀ kv ∈ st.1, kv.1 = chainRootTop ctp kv.2.id) →
      (mapKeysX st.1).Nodup →
      (∀ kv ∈ (l.foldl (groupStep ctp) st).1, kv.1 = chainRootTop ctp kv.2.id) ∧
      (mapKeysX (l.foldl (groupStep ctp) st).1).Nodup := by
  intro l
  induction l with
  | nil => intro st _ hg hn; exact ⟨hg, hn⟩
  | cons f t ih =>
    intro st hc hg hn
    obtain ⟨hc', hg', hn'⟩ := @groupStep_inv ctp rank hrk st f hc hg hn
    exact ih (groupStep ctp st f) hc' hg' hn'

theorem groupAndFilterFiles_pairwise {l : List File} {rank : String → Nat}
    (hrk : RankOK (buildChildToParent l) rank) :
    (groupAndFilterFiles l).Pairwise (fun f g =>
      findRoot (buildChildToParent l) f.id ≠ findRoot (buildChildToParent l) g.id) := by
  obtain ⟨hinv, hnodup⟩ := groupFold_inv hrk l ([], [])
    (by intro pr h; cases h) (by intro kv h; cases h) (by simp [mapKeysX])
  unfold groupAndFilterFiles
  have h1 : ((l.foldl (groupStep (buildChildToParent l)) ([], [])).1).Pairwise
      (fun a b => a.1 ≠ b.1) := List.pairwise_map.1 hnodup
  have h2 : ((l.foldl (groupStep (buildChildToParent l)) ([], [])).1).Pairwise
      (fun a b => chainRootTop (buildChildToParent l) a.2.id ≠
        chainRootTop (buildChildToParent l) b.2.id) := by
    refine h1.imp_of_mem ?_
    intro a b ha hb hab
    rw [← hinv a ha, ← hinv b hb]
    exact hab
  have h3 : (((l.foldl (groupStep (buildChildToParent l)) ([], [])).1).map
      Prod.snd).Pairwise (fun f g =>
        chainRootTop (buildChildToParent l) f.id ≠
        chainRootTop (buildChildToParent l) g.id) := by
    rw [List.pairwise_map]
    exact h2
  refine h3.imp ?_
  intro a b hab
  rw [findRoot_eq_top hrk, findRoot_eq_top hrk]
  exact hab

theorem getFiles_pairwise_lineage {requester : Option String} {all : List File}
    {rank : String → Nat}
    (hrk : RankOK (buildChildToParent (visibleSorted requester all)) rank) :
    (getFiles requester all).Pairwise (fun f g =>
      findRoot (buildChildToParent (visibleSorted requester all)) f.id ≠
      findRoot (buildChildToParent (visibleSorted requester all)) g.id) := by
  rw [getFiles_eq]
  have h := groupAndFilterFiles_pairwise hrk
  have h2 : ((groupAndFilterFiles (visibleSorted requester all)).map
      (sanitizeIfNotOwner requester)).Pairwise (fun f g =>
        findRoot (buildChildToParent (visibleSorted requester all)) f.id ≠
        findRoot (buildChildToParent (visibleSorted requester all)) g.id) := by
    rw [List.pairwise_map]
    refine h.imp ?_
    intro a b hab
    rw [sanitizeIfNotOwner_id, sanitizeIfNotOwner_id]
    exact hab
  exact ((sortDesc_perm _).pairwise_iff (fun {a b} hab e => hab e.symm)).2 h2

/-! ## Claim C4 -/

/-- Counterexample to claim C4 as stated: for the lineage with public root
`fileR` (createdAt 0) and newer private head `fileC` (createdAt 1), the
anonymous listing is `[fileR]` — one entry, the old public root — not zero
entries: `getFiles` filters each record by its own `isPrivate` before
grouping, so the private head's policy does not hide the older public
version from anonymous callers. -/
theorem C4_counterexample_anonymous_lists_public_root :
    getFiles none [fileR, fileC] = [fileR] ∧ getFiles none [fileR, fileC] ≠ [] := by
  constructor
  · decide
  · decide

/-- Claim C4 as amended: the visible listing filters to records that are
public or owned by the requester **before** grouping; every returned record
passed that per-record filter (anonymous callers receive only public
records), and the listing contains at most one record per lineage of the
filtered subset (shown for well-formed — acyclic, rank-admitting — parent
data).  For the lineage {public root `fileR`, newer private head `fileC`},
an anonymous caller receives exactly one entry, the public root `fileR`
(not zero entries), while the owner receives exactly one entry, `fileC`. -/
theorem C4_amended_filter_precedes_grouping :
    getFiles none [fileR, fileC] = [fileR] ∧
    getFiles (some "u1") [fileR, fileC] = [fileC] ∧
    (∀ (requester : Option String) (all : List File) (f : File),
       f ∈ getFiles requester all → visibleFilter requester f = true) ∧
    (∀ (requester : Option String) (all : List File) (rank : String → Nat),
       RankOK (buildChildToParent (visibleSorted requester all)) rank →
       (getFiles requester all).Pairwise (fun f g =>
         findRoot (buildChildToParent (visibleSorted requester all)) f.id ≠
         findRoot (buildChildToParent (visibleSorted requester all)) g.id)) := by
  refine ⟨by decide, by decide, ?_, ?_⟩
  · intro requester all f hf
    rcases getFiles_mem_spec hf with ⟨g, _, hgvis, hsan⟩
    rw [hsan, visibleFilter_sanitize]
    exact hgvis
  · intro requester all rank hrk
    exact getFiles_pairwise_lineage hrk

/-- Witness for the amended C4: the anonymous concrete listing satisfies the
per-record visibility clause and the one-per-lineage clause. -/
theorem C4_amended_witness :
    visibleFilter none fileR = true ∧
    ((getFiles none [fileR, fileC]).Pairwise fun f g =>
      findRoot (buildChildToParent (visibleSorted none [fileR, fileC])) f.id ≠
      findRoot (buildChildToParent (visibleSorted none [fileR, fileC])) g.id) :=
  ⟨C4_amended_filter_precedes_grouping.2.2.1 none [fileR, fileC] fileR (by decide),
   C4_amended_filter_precedes_grouping.2.2.2 none [fileR, fileC] (fun _ => 0)
     ⟨by decide, fun id => Nat.zero_le _⟩⟩

end MonoS3
